import Mathlib

/-!
# countKmers: counting and ranking 4-mers of DNA sequence lines

A shallow embedding of `countKmers.cpp` and the properties of its functions:
`is_valid_dna_sequence`, `count_kmers`, `compare_kmer_counts`, `sort_kmers`,
`write_output`, and `check_args`, `read_file` and `main`.

Modelling conventions.

* A `std::string` is a list of characters (`Str`); `operator<` on strings is
  the lexicographic comparison `str_lt`.
* A `std::map<std::string, int>` is the list of its entries in iteration
  order (`Dict`); `kmer_dict[kmer]++` is `map_incr`.  Counts are `int`s read
  as mathematical integers.
* `std::cerr` is the list of the texts written to it, one per output
  statement (`KState.cerr`).
* A function that can leave by an exception, or whose loop is cut off, returns
  an `Option`: `none` stands for "no normal return".
* The outcomes of the file operations (whether a stream opens, the position
  `tellg()` reports, whether a stream is bad, whether the last flush fails)
  are inputs (`Env`); a function that throws `std::runtime_error` returns an
  `Except` with the message.
* Where the width of `int` matters, `count_kmers32` stores the counts as
  32-bit `int`s; it agrees with `count_kmers` up to `int32_wrap` of the counts.
* `std::sort` is an insertion sort (`std_sort`); `is_sort_result` is its
  contract, and the ranked sequence is shown not to depend on the choice.
-/

namespace CountKmers

/-! ## Strings -/

/-- A `std::string`: a finite sequence of `char`s. -/
abbrev Str := List Char

/-- The comparison `a < b` of two `std::string`s: the first position where they
differ decides, by character code; a proper prefix is smaller. -/
def str_lt : Str → Str → Bool
  | [], [] => false
  | [], _ :: _ => true
  | _ :: _, [] => false
  | a :: as, b :: bs =>
      if a < b then true else if b < a then false else str_lt as bs

/-- The call `s.substr(pos, n)`: throws `std::out_of_range` (here `none`) when
`pos > s.size()`, and otherwise returns the characters from `pos` on, at most
`n` of them. -/
def substr (s : Str) (pos n : Nat) : Option Str :=
  if pos > s.length then none else some ((s.drop pos).take n)

/-- The difference `a - b` in `size_t` arithmetic (64 bits): when `b` exceeds `a`
the result wraps around. -/
def size_sub (a b : Nat) : Nat :=
  if b ≤ a then a - b else (a + 2 ^ 64 - b) % 2 ^ 64

/-! ## The frequency mapping -/

/-- A `std::map<std::string, int>`, as the list of its entries in iteration
order, which is ascending key order. -/
abbrev Dict := List (Str × Int)

/-- The statement `kmer_dict[k]++`: `operator[]` finds the entry whose key is
equivalent to `k` (neither smaller nor greater), inserting one with count `0`
at its place in key order when there is none, and the count is incremented. -/
def map_incr (k : Str) : Dict → Dict
  | [] => [(k, 0 + 1)]
  | (k', v) :: rest =>
      if str_lt k k' then (k, 0 + 1) :: (k', v) :: rest
      else if str_lt k' k then (k', v) :: map_incr k rest
      else (k', v + 1) :: rest

/-! ## `is_valid_dna_sequence` -/

/-- The function `is_valid_dna_sequence`: scans the characters in order and
returns `false` at the first one that is none of `A`, `T`, `C`, `G`. -/
def is_valid_dna_sequence : Str → Bool
  | [] => true
  | c :: cs =>
      if c ≠ 'A' && c ≠ 'T' && c ≠ 'C' && c ≠ 'G' then false
      else is_valid_dna_sequence cs

/-! ## `count_kmers` -/

/-- The state of `count_kmers`: the mapping under construction and what has
been written to `std::cerr`, one text per output statement. -/
structure KState where
  /-- The local variable `kmer_dict`. -/
  kmer_dict : Dict
  /-- The texts written to `std::cerr` so far, oldest first. -/
  cerr : List Str
deriving DecidableEq

/-- The text written for a line that fails `is_valid_dna_sequence`. -/
def warn_invalid (line : Str) : Str :=
  "Warning: Invalid DNA sequence found: ".toList ++ line ++ [Char.ofNat 10]

/-- The text written for a valid line of fewer than 4 characters. -/
def warn_short (line : Str) : Str :=
  "Warning: Line too short to contain any k-mers: ".toList ++ line ++ [Char.ofNat 10]

/-- The window loop `for (size_t j = 0; j <= line.size() - 4; ++j)` of
`count_kmers`, from index `j` on, with at most `fuel` evaluations of the loop
test (`none` when they are used up).  The index stays at most one above the
bound, so `++j` is taken without wrap-around. -/
def kmer_loop (line : Str) : Nat → Nat → Dict → Option Dict
  | 0, _, _ => none
  | fuel + 1, j, d =>
      if j ≤ size_sub line.length 4 then
        match substr line j 4 with
        | none => none
        | some kmer => kmer_loop line fuel (j + 1) (map_incr kmer d)
      else some d

/-- The body of the line loop of `count_kmers` for one line: the three guards in
source order, each ending the iteration (`continue`), then the window loop.
The window loop is given `line.size() + 1` evaluations of its test. -/
def count_kmers_line (line : Str) (st : KState) : Option KState :=
  match line with
  | [] => some st
  | c :: _ =>
      if c = '>' then some st
      else if !is_valid_dna_sequence line then
        some { st with cerr := st.cerr ++ [warn_invalid line] }
      else if line.length < 4 then
        some { st with cerr := st.cerr ++ [warn_short line] }
      else
        match kmer_loop line (line.length + 1) 0 st.kmer_dict with
        | none => none
        | some d => some { st with kmer_dict := d }

/-- The line loop of `count_kmers` over the remaining lines. -/
def count_kmers_from : List Str → KState → Option KState
  | [], st => some st
  | line :: rest, st =>
      match count_kmers_line line st with
      | none => none
      | some st' => count_kmers_from rest st'

/-- The function `count_kmers`: starts from the empty mapping and processes the
lines in order.  The result holds the returned mapping and the warnings. -/
def count_kmers (data : List Str) : Option KState :=
  count_kmers_from data { kmer_dict := [], cerr := [] }

/-! ## `count_kmers` with 32-bit counts -/

/-- The value an `int` variable holds when the mathematical result is `n`: `n`
reduced into the range `-2^31 .. 2^31 - 1` (32-bit two's complement
wrap-around, which is what an increment past `INT_MAX` gives in practice). -/
def int32_wrap (n : Int) : Int := (n + 2147483648) % 4294967296 - 2147483648

/-- The statement `kmer_dict[k]++` as `map_incr`, with the count stored in a
32-bit `int`. -/
def map_incr32 (k : Str) : Dict → Dict
  | [] => [(k, int32_wrap (0 + 1))]
  | (k', v) :: rest =>
      if str_lt k k' then (k, int32_wrap (0 + 1)) :: (k', v) :: rest
      else if str_lt k' k then (k', v) :: map_incr32 k rest
      else (k', int32_wrap (v + 1)) :: rest

/-- The window loop of `count_kmers` as `kmer_loop`, with 32-bit counts. -/
def kmer_loop32 (line : Str) : Nat → Nat → Dict → Option Dict
  | 0, _, _ => none
  | fuel + 1, j, d =>
      if j ≤ size_sub line.length 4 then
        match substr line j 4 with
        | none => none
        | some kmer => kmer_loop32 line fuel (j + 1) (map_incr32 kmer d)
      else some d

/-- The body of the line loop of `count_kmers` as `count_kmers_line`, with 32-bit
counts. -/
def count_kmers_line32 (line : Str) (st : KState) : Option KState :=
  match line with
  | [] => some st
  | c :: _ =>
      if c = '>' then some st
      else if !is_valid_dna_sequence line then
        some { st with cerr := st.cerr ++ [warn_invalid line] }
      else if line.length < 4 then
        some { st with cerr := st.cerr ++ [warn_short line] }
      else
        match kmer_loop32 line (line.length + 1) 0 st.kmer_dict with
        | none => none
        | some d => some { st with kmer_dict := d }

/-- The line loop of `count_kmers` over the remaining lines, with 32-bit counts. -/
def count_kmers_from32 : List Str → KState → Option KState
  | [], st => some st
  | line :: rest, st =>
      match count_kmers_line32 line st with
      | none => none
      | some st' => count_kmers_from32 rest st'

/-- The function `count_kmers` with the counts stored in 32-bit `int`s, as the
source declares them: it differs from `count_kmers` only when a count passes
`INT_MAX`. -/
def count_kmers32 (data : List Str) : Option KState :=
  count_kmers_from32 data { kmer_dict := [], cerr := [] }

/-- The mapping `d` with every count reduced to a 32-bit `int`. -/
def wrap_dict (d : Dict) : Dict := d.map (fun e => (e.1, int32_wrap e.2))

/-- The state with every count reduced to a 32-bit `int`. -/
def wrap_state (st : KState) : KState := { st with kmer_dict := wrap_dict st.kmer_dict }

/-! ## `compare_kmer_counts` and `sort_kmers` -/

/-- The comparator `compare_kmer_counts`. -/
def compare_kmer_counts (a b : Str × Int) : Bool :=
  decide (a.2 > b.2) || (decide (a.2 = b.2) && str_lt a.1 b.1)

/-- Insertion of `x` into a sorted list, before the first element it precedes. -/
def sort_insert {α : Type} (comp : α → α → Bool) (x : α) : List α → List α
  | [] => [x]
  | y :: ys => if comp x y then x :: y :: ys else y :: sort_insert comp x ys

/-- The call `std::sort(first, last, comp)`, as an insertion sort. -/
def std_sort {α : Type} (comp : α → α → Bool) : List α → List α
  | [] => []
  | x :: xs => sort_insert comp x (std_sort comp xs)

/-- The function `sort_kmers`: copies the entries of the mapping, in iteration
order, into a vector and sorts it with `compare_kmer_counts`. -/
def sort_kmers (kmer_dict : Dict) : List (Str × Int) :=
  std_sort compare_kmer_counts kmer_dict

/-! ## `write_output` -/

/-- The text `f << n` writes for an `int` `n`: its decimal digits, after a minus
sign when `n` is negative. -/
def int_text : Int → Str
  | Int.ofNat m => Nat.toDigits 10 m
  | Int.negSucc m => '-' :: Nat.toDigits 10 (m + 1)

/-- The loop of `write_output` over the remaining entries: each iteration
appends the key, a tab, the count and a line feed to the text `f` written so
far. -/
def write_entries : List (Str × Int) → Str → Str
  | [], f => f
  | kmer_count_pair :: rest, f =>
      write_entries rest
        (f ++ kmer_count_pair.1 ++ "\t".toList ++ int_text kmer_count_pair.2 ++ "\n".toList)

/-- The function `write_output`.  Whether the output file opens (`opens`) and
whether the stream is bad after the writes (`bad`) are inputs.  The result is
the text written to the file, or the message of the exception thrown. -/
def write_output (sorted_kmers : List (Str × Int)) (opens bad : Bool) : Except Str Str :=
  if !opens then
    Except.error "Error: Unable to open output file".toList
  else if bad then
    Except.error "Error: An error occurred while writing to the output file".toList
  else
    Except.ok (write_entries sorted_kmers [])

/-! ## `check_args`, `read_file` and `main` -/

/-- The command line and the outcomes of the file operations of one run. -/
structure Env where
  /-- The arguments `argv[0] .. argv[argc - 1]`. -/
  argv : List Str
  /-- Whether `std::ifstream infile(argv[1])` in `check_args` opens. -/
  infile_opens : Bool
  /-- The position `infile.tellg()` reports after seeking to the end. -/
  infile_tellg : Int
  /-- Whether `std::ifstream f(infile)` in `read_file` opens. -/
  read_opens : Bool
  /-- The lines `std::getline` delivers in `read_file`. -/
  read_lines : List Str
  /-- Whether the input stream is bad after the last `std::getline`. -/
  read_bad : Bool
  /-- Whether `std::ofstream f(outfile)` in `write_output` opens. -/
  outfile_opens : Bool
  /-- Whether the output stream is bad at the test `f.bad()` in `write_output`:
  whether a write to the file has already failed during the `<<` statements. -/
  write_bad : Bool
  /-- Whether writing the text still held in the buffer of the output stream
  fails when the stream is closed, on leaving `write_output`.  This comes after
  the test `f.bad()`, and the destructor reports nothing. -/
  flush_fails : Bool

/-- The argument count `argc`. -/
def Env.argc (env : Env) : Nat := env.argv.length

/-- The function `check_args`: returns normally, or gives the message of the
exception it throws.  With no argument at all `argv[0]` is a null pointer, and
building the usage message from it has no defined result (`none`; in practice
the program crashes). -/
def check_args (env : Env) : Option (Except Str Unit) :=
  if env.argc ≠ 3 then
    match env.argv with
    | [] => none
    | argv0 :: _ =>
        some (Except.error ("Usage: ".toList ++ argv0 ++ " <input_file> <output_file>".toList))
  else if !env.infile_opens then
    some (Except.error ("Error: File '".toList ++ env.argv.getD 1 [] ++ "' not found".toList))
  else if env.infile_tellg = 0 then
    some (Except.error ("Error: File '".toList ++ env.argv.getD 1 [] ++ "' is empty".toList))
  else
    some (Except.ok ())

/-- The function `read_file`: the lines read, or the message of the exception it
throws. -/
def read_file (env : Env) : Except Str (List Str) :=
  if !env.read_opens then
    Except.error "Error: Unable to open input file".toList
  else if env.read_bad then
    Except.error "Error: An error occurred while reading the input file".toList
  else
    Except.ok env.read_lines

/-- What a run of `main` leaves behind. -/
structure MainResult where
  /-- The value `main` returns. -/
  exit_code : Int
  /-- The texts written to `std::cerr`, one per output statement. -/
  cerr : List Str
  /-- The text the output file holds, when `write_output` returned normally and
  the text reached the file as the stream was closed; `none` otherwise. -/
  outfile : Option Str
deriving DecidableEq

/-- The function `main`: the five calls in order, the counts being 32-bit `int`s;
the first exception ends the `try` block, its message is written to
`std::cerr`, and `main` returns 1.  `none` stands for a run that does not
return from `main`. -/
def main (env : Env) : Option MainResult :=
  match check_args env with
  | none => none
  | some (Except.error e) =>
      some { exit_code := 1, cerr := [e ++ "\n".toList], outfile := none }
  | some (Except.ok _) =>
      match read_file env with
      | Except.error e =>
          some { exit_code := 1, cerr := [e ++ "\n".toList], outfile := none }
      | Except.ok data =>
          match count_kmers32 data with
          | none => none
          | some st =>
              let sorted_kmers := sort_kmers st.kmer_dict
              match write_output sorted_kmers env.outfile_opens env.write_bad with
              | Except.error e =>
                  some { exit_code := 1, cerr := st.cerr ++ [e ++ "\n".toList],
                         outfile := none }
              | Except.ok text =>
                  some { exit_code := 0, cerr := st.cerr,
                         outfile := if env.flush_fails then none else some text }

/-- Writing the output fails: a write to the output file fails, during the `<<`
statements or when the stream is closed. -/
def writing_fails (env : Env) : Prop := env.write_bad = true ∨ env.flush_fails = true

/-! ## Observations on mappings -/

/-- The count stored for key `k` in the mapping `d`, taken as `0` when `k` is
not a key. -/
def map_count : Dict → Str → Int
  | [], _ => 0
  | (k', v) :: rest, k => if k' = k then v else map_count rest k

/-- The keys of a mapping, in iteration order. -/
def map_keys (d : Dict) : List Str := d.map Prod.fst

/-- The sum of all counts of a mapping. -/
def map_total (d : Dict) : Int := (d.map Prod.snd).sum

/-- The representation invariant of a `std::map`: the keys are strictly
ascending in iteration order. -/
def map_wf (d : Dict) : Prop := d.Pairwise (fun a b => str_lt a.1 b.1 = true)

/-! ## A closed form of `count_kmers` -/

/-- The window of `line` at offset `j`: the (at most) 4 characters from `j` on. -/
def window_at (line : Str) (j : Nat) : Str := (line.drop j).take 4

/-- The line is skipped without a warning: it is empty or begins with `>`. -/
def is_skipped (line : Str) : Bool :=
  match line with
  | [] => true
  | c :: _ => decide (c = '>')

/-- The k-mers a single line adds to the mapping, in the order they are added:
the windows at offsets `0 .. length - 4` of a line that is not skipped, is
accepted by `is_valid_dna_sequence` and has at least 4 characters; none for any
other line. -/
def line_kmers (line : Str) : List Str :=
  if is_skipped line || !is_valid_dna_sequence line || decide (line.length < 4) then []
  else (List.range (line.length - 3)).map (window_at line)

/-- The warnings a single line causes. -/
def line_warnings (line : Str) : List Str :=
  if is_skipped line then []
  else if !is_valid_dna_sequence line then [warn_invalid line]
  else if line.length < 4 then [warn_short line]
  else []

/-- The k-mers all lines add to the mapping, in the order they are added. -/
def all_kmers : List Str → List Str
  | [] => []
  | line :: rest => line_kmers line ++ all_kmers rest

/-- The warnings all lines cause, in line order. -/
def all_warnings : List Str → List Str
  | [] => []
  | line :: rest => line_warnings line ++ all_warnings rest

/-- The mapping after incrementing the counts of the keys `ks`, in order. -/
def map_incr_all (ks : List Str) (d : Dict) : Dict :=
  ks.foldl (fun d k => map_incr k d) d

/-! ## Specification vocabulary -/

/-- The character is one of the four symbols `A`, `T`, `C`, `G`. -/
def is_dna_char (c : Char) : Prop := c = 'A' ∨ c = 'T' ∨ c = 'C' ∨ c = 'G'

instance : DecidablePred is_dna_char := fun c => by
  unfold is_dna_char; infer_instance

/-- A valid sequence line: non-empty, not starting with `>`, and every character
one of `A`, `T`, `C`, `G`. -/
def is_sequence_line (line : Str) : Prop :=
  line ≠ [] ∧ line.head? ≠ some '>' ∧ ∀ c ∈ line, is_dna_char c

instance : DecidablePred is_sequence_line := fun line => by
  unfold is_sequence_line; infer_instance

/-- The offset `j` is the start of a counted window of `line` equal to `k`: the
line is a valid sequence line of at least 4 characters, `j ≤ length - 4`, and
the 4 characters from `j` on are `k`. -/
def is_line_occurrence (line k : Str) (j : Nat) : Prop :=
  is_sequence_line line ∧ 4 ≤ line.length ∧ j ≤ line.length - 4 ∧
    (line.drop j).take 4 = k

/-- The pair `p = (i, j)` of a line position and an offset is an occurrence of
`k`: there is a line at position `i`, and `j` starts a counted window of it
equal to `k`. -/
def is_occurrence (data : List Str) (k : Str) (p : Nat × Nat) : Prop :=
  ∃ line, data[p.1]? = some line ∧ is_line_occurrence line k p.2

/-- A well-formed k-mer: exactly 4 characters, each one of `A`, `T`, `C`, `G`. -/
def is_kmer (k : Str) : Prop := k.length = 4 ∧ ∀ c ∈ k, is_dna_char c

instance : DecidablePred is_kmer := fun k => by
  unfold is_kmer; infer_instance

/-- A line that is warned about: non-empty, not starting with `>`, and either
holding a character outside `A`, `T`, `C`, `G` or shorter than 4. -/
def is_warned (line : Str) : Prop :=
  line ≠ [] ∧ line.head? ≠ some '>' ∧ ((∃ c ∈ line, ¬ is_dna_char c) ∨ line.length < 4)

instance : DecidablePred is_warned := fun line => by
  unfold is_warned; infer_instance

/-- The warning for a warned line: the invalid-sequence text when it holds a
character outside `A`, `T`, `C`, `G`, the too-short text otherwise. -/
def warning_of (line : Str) : Str :=
  if ∀ c ∈ line, is_dna_char c then warn_short line else warn_invalid line

/-- The line `write_output` writes for one entry: key, tab, count, line feed. -/
def entry_line (e : Str × Int) : Str :=
  e.1 ++ "\t".toList ++ int_text e.2 ++ "\n".toList

/-! ## The contract of `std::sort` and runs of the pipeline -/

/-- The contract of `std::sort(first, last, comp)`: `output` is a permutation of
`input` in which no later element is placed by `comp` before an earlier one.
Which such arrangement is produced is left open (the sort is not stable). -/
def is_sort_result {α : Type} (comp : α → α → Bool) (input output : List α) : Prop :=
  output.Perm input ∧ output.Pairwise (fun a b => comp b a = false)

/-- One run of the pipeline on `lines`: `count_kmers`, any sort meeting the
contract of `std::sort` with `compare_kmer_counts`, and a `write_output` that
succeeds; `warnings` is what went to `std::cerr` and `text` what was written. -/
def is_run (lines : List Str) (warnings : List Str) (text : Str) : Prop :=
  ∃ st ranked, count_kmers lines = some st ∧
    is_sort_result compare_kmer_counts st.kmer_dict ranked ∧
    write_output ranked true false = Except.ok text ∧ warnings = st.cerr

/-! ## `count_kmers` with checked accesses -/

/-- The window loop of `count_kmers` as `kmer_loop`, recording for each
iteration its index `j` and the string `substr` returned. -/
def kmer_loop_traced (line : Str) :
    Nat → Nat → Dict → List (Nat × Str) → Option (Dict × List (Nat × Str))
  | 0, _, _, _ => none
  | fuel + 1, j, d, log =>
      if j ≤ size_sub line.length 4 then
        match substr line j 4 with
        | none => none
        | some kmer =>
            kmer_loop_traced line fuel (j + 1) (map_incr kmer d) (log ++ [(j, kmer)])
      else some (d, log)

/-- The body of the line loop of `count_kmers` with its accesses checked: the
read `line[0]` has no value (`none`) outside the line, `substr` throws outside
it, and the iterations of the window loop are recorded. -/
def count_kmers_line_traced (line : Str) (st : KState) :
    Option (KState × List (Nat × Str)) :=
  if line.isEmpty then some (st, [])
  else
    match (line)[0]? with
    | none => none
    | some c =>
        if c = '>' then some (st, [])
        else if !is_valid_dna_sequence line then
          some ({ st with cerr := st.cerr ++ [warn_invalid line] }, [])
        else if line.length < 4 then
          some ({ st with cerr := st.cerr ++ [warn_short line] }, [])
        else
          match kmer_loop_traced line (line.length + 1) 0 st.kmer_dict [] with
          | none => none
          | some (d, log) => some ({ st with kmer_dict := d }, log)

/-! ## The 256 possible keys -/

/-- The four symbols of the alphabet. -/
def dna_alphabet : List Char := ['A', 'T', 'C', 'G']

/-- All strings of 4 symbols of the alphabet. -/
def all_4mers : List Str :=
  dna_alphabet.flatMap fun a => dna_alphabet.flatMap fun b =>
    dna_alphabet.flatMap fun c => dna_alphabet.map fun d => [a, b, c, d]

/-! ## The string order -/

theorem str_lt_irrefl (a : Str) : str_lt a a = false := by
  induction a with
  | nil => rfl
  | cons c cs ih => simp [str_lt, ih]

theorem str_lt_trans : ∀ (a b c : Str), str_lt a b = true → str_lt b c = true →
    str_lt a c = true
  | [], [], _, h, _ => by simp [str_lt] at h
  | [], _ :: _, [], _, h => by simp [str_lt] at h
  | [], _ :: _, _ :: _, _, _ => by simp [str_lt]
  | _ :: _, [], _, h, _ => by simp [str_lt] at h
  | _ :: _, _ :: _, [], _, h => by simp [str_lt] at h
  | x :: xs, y :: ys, z :: zs, h1, h2 => by
      simp only [str_lt] at h1 h2 ⊢
      by_cases hxy : x < y
      · by_cases hyz : y < z
        · simp [lt_trans hxy hyz]
        · simp only [hyz, if_false] at h2
          by_cases hzy : z < y
          · simp [hzy] at h2
          · have : y = z := le_antisymm (not_lt.mp hzy) (not_lt.mp hyz)
            subst this
            simp [hxy]
      · simp only [hxy, if_false] at h1
        by_cases hyx : y < x
        · simp [hyx] at h1
        · have : x = y := le_antisymm (not_lt.mp hyx) (not_lt.mp hxy)
          subst this
          simp only [hyx, if_false] at h1
          by_cases hxz : x < z
          · simp [hxz]
          · simp only [hxz, if_false] at h2 ⊢
            by_cases hzx : z < x
            · simp [hzx] at h2
            · simp only [hzx, if_false] at h2 ⊢
              exact str_lt_trans xs ys zs h1 h2

theorem str_lt_asymm (a b : Str) (h : str_lt a b = true) : str_lt b a = false := by
  by_contra hba
  have hba' : str_lt b a = true := by simpa using hba
  have := str_lt_trans a b a h hba'
  simp [str_lt_irrefl] at this

theorem str_lt_total : ∀ (a b : Str), str_lt a b = false → str_lt b a = false → a = b
  | [], [], _, _ => rfl
  | [], _ :: _, h, _ => by simp [str_lt] at h
  | _ :: _, [], _, h => by simp [str_lt] at h
  | x :: xs, y :: ys, h1, h2 => by
      simp only [str_lt] at h1 h2
      by_cases hxy : x < y
      · simp [hxy] at h1
      · by_cases hyx : y < x
        · simp [hyx] at h2
        · simp only [hxy, hyx, if_false] at h1 h2
          have : x = y := le_antisymm (not_lt.mp hyx) (not_lt.mp hxy)
          rw [this, str_lt_total xs ys h1 h2]

/-! ## The increment of a mapping -/

theorem map_count_eq_zero_of_lt (k : Str) :
    ∀ (d : Dict), (∀ e ∈ d, str_lt k e.1 = true) → map_count d k = 0
  | [], _ => rfl
  | (k', v) :: rest, h => by
      have hk : str_lt k k' = true := h (k', v) (List.mem_cons_self _ _)
      have hne : k' ≠ k := by
        intro he
        rw [he, str_lt_irrefl] at hk
        exact Bool.false_ne_true hk
      simp only [map_count, hne, if_false]
      exact map_count_eq_zero_of_lt k rest
        (fun e he => h e (List.mem_cons_of_mem _ he))

theorem map_incr_mem (k : Str) :
    ∀ (d : Dict) (e : Str × Int), e ∈ map_incr k d → e.1 = k ∨ e.1 ∈ map_keys d
  | [], e, h => by
      simp only [map_incr, List.mem_singleton] at h
      left; rw [h]
  | (k', v) :: rest, e, h => by
      simp only [map_incr] at h
      split_ifs at h with h1 h2
      · rcases List.mem_cons.mp h with h | h
        · left; rw [h]
        · right; exact List.mem_map_of_mem Prod.fst h
      · rcases List.mem_cons.mp h with h | h
        · right; rw [h]; simp [map_keys]
        · rcases map_incr_mem k rest e h with h | h
          · left; exact h
          · right
            simp only [map_keys, List.map_cons, List.mem_cons]
            right; exact h
      · rcases List.mem_cons.mp h with h | h
        · right; rw [h]; simp [map_keys]
        · right
          simp only [map_keys, List.map_cons, List.mem_cons]
          right; exact List.mem_map_of_mem Prod.fst h

theorem map_incr_wf (k : Str) : ∀ (d : Dict), map_wf d → map_wf (map_incr k d)
  | [], _ => by simp [map_incr, map_wf]
  | (k', v) :: rest, h => by
      unfold map_wf at h ⊢
      have hhd := (List.pairwise_cons.mp h).1
      have htl := (List.pairwise_cons.mp h).2
      simp only [map_incr]
      split_ifs with h1 h2
      · refine List.pairwise_cons.mpr ⟨?_, h⟩
        intro e he
        rcases List.mem_cons.mp he with he | he
        · rw [he]; exact h1
        · exact str_lt_trans _ _ _ h1 (hhd e he)
      · refine List.pairwise_cons.mpr ⟨?_, map_incr_wf k rest htl⟩
        intro e he
        rcases map_incr_mem k rest e he with hk | hk
        · rw [hk]; exact h2
        · obtain ⟨e', he', hee⟩ := List.mem_map.mp hk
          rw [← hee]; exact hhd e' he'
      · exact List.pairwise_cons.mpr ⟨hhd, htl⟩

theorem map_count_incr (k k' : Str) :
    ∀ (d : Dict), map_wf d →
      map_count (map_incr k d) k' = map_count d k' + (if k = k' then 1 else 0)
  | [], _ => by simp [map_incr, map_count]
  | (k0, v) :: rest, h => by
      have hhd := (List.pairwise_cons.mp h).1
      have htl : map_wf rest := (List.pairwise_cons.mp h).2
      simp only [map_incr]
      by_cases h1 : str_lt k k0 = true
      · simp only [h1, if_true]
        by_cases h3 : k = k'
        · subst h3
          have hz : map_count ((k0, v) :: rest) k = 0 := by
            apply map_count_eq_zero_of_lt
            intro e he
            rcases List.mem_cons.mp he with he | he
            · rw [he]; exact h1
            · exact str_lt_trans _ _ _ h1 (hhd e he)
          rw [hz]; simp [map_count]
        · simp [map_count, h3]
      · simp only [h1, if_false]
        by_cases h2 : str_lt k0 k = true
        · simp only [h2, if_true]
          have hne : k0 ≠ k := by
            intro he
            rw [he, str_lt_irrefl] at h2
            exact Bool.false_ne_true h2
          have ih := map_count_incr k k' rest htl
          by_cases h4 : k = k'
          · subst h4
            simp only [map_count, hne, if_false, ih, if_true]
          · simp only [map_count, ih, h4, if_false, add_zero]
        · simp only [h2, if_false]
          have hk : k = k0 := str_lt_total k k0 (by simpa using h1) (by simpa using h2)
          subst hk
          by_cases h5 : k = k'
          · simp [map_count, h5]
          · simp [map_count, h5]

theorem map_total_incr (k : Str) :
    ∀ (d : Dict), map_total (map_incr k d) = map_total d + 1
  | [] => by simp [map_incr, map_total]
  | (k', v) :: rest => by
      have ih := map_total_incr k rest
      simp only [map_total] at ih ⊢
      simp only [map_incr]
      split_ifs
      · simp only [List.map_cons, List.sum_cons]; ring
      · simp only [List.map_cons, List.sum_cons, ih]; ring
      · simp only [List.map_cons, List.sum_cons]; ring

/-! ## The window loop and the line loop -/

theorem size_sub_of_le (a b : Nat) (h : b ≤ a) : size_sub a b = a - b := by
  simp [size_sub, h]

theorem kmer_loop_eq (line : Str) (h4 : 4 ≤ line.length) :
    ∀ (n fuel j : Nat) (d : Dict), j + n = line.length - 3 → n < fuel →
      kmer_loop line fuel j d
        = some (map_incr_all ((List.range' j n).map (window_at line)) d)
  | 0, fuel, j, d, hj, hf => by
      obtain ⟨f, rfl⟩ : ∃ f, fuel = f + 1 := ⟨fuel - 1, by omega⟩
      have hgt : ¬ j ≤ size_sub line.length 4 := by
        rw [size_sub_of_le _ _ h4]; omega
      simp [kmer_loop, hgt, map_incr_all]
  | n + 1, fuel, j, d, hj, hf => by
      obtain ⟨f, rfl⟩ : ∃ f, fuel = f + 1 := ⟨fuel - 1, by omega⟩
      have hle : j ≤ size_sub line.length 4 := by
        rw [size_sub_of_le _ _ h4]; omega
      have hsub : substr line j 4 = some (window_at line j) := by
        have : ¬ j > line.length := by omega
        simp [substr, this, window_at]
      have ih := kmer_loop_eq line h4 n f (j + 1) (map_incr (window_at line j) d)
        (by omega) (by omega)
      simp only [kmer_loop, hle, if_true, hsub, ih]
      simp [List.range'_succ, map_incr_all]

theorem count_kmers_line_eq (line : Str) (st : KState) :
    count_kmers_line line st
      = some { kmer_dict := map_incr_all (line_kmers line) st.kmer_dict,
               cerr := st.cerr ++ line_warnings line } := by
  cases line with
  | nil => simp [count_kmers_line, line_kmers, line_warnings, is_skipped, map_incr_all]
  | cons c cs =>
      by_cases hc : c = '>'
      · simp [count_kmers_line, line_kmers, line_warnings, is_skipped, map_incr_all, hc]
      · by_cases hv : is_valid_dna_sequence (c :: cs) = true
        · by_cases hl : (c :: cs).length < 4
          · have hl' : cs.length + 1 < 4 := by simpa using hl
            simp [count_kmers_line, line_kmers, line_warnings, is_skipped, map_incr_all,
              hc, hv, hl']
          · have h4 : 4 ≤ (c :: cs).length := by omega
            have hloop := kmer_loop_eq (c :: cs) h4 ((c :: cs).length - 3)
              ((c :: cs).length + 1) 0 st.kmer_dict (by omega) (by omega)
            simp only [count_kmers_line, hc, if_false, hv, Bool.not_true, hl, hloop,
              line_kmers, line_warnings, is_skipped, decide_False, Bool.false_or,
              Bool.or_false, List.append_nil, List.range_eq_range', Bool.false_eq_true]
        · have hv' : is_valid_dna_sequence (c :: cs) = false := by simpa using hv
          simp [count_kmers_line, line_kmers, line_warnings, is_skipped, map_incr_all,
            hc, hv']

theorem count_kmers_from_eq :
    ∀ (data : List Str) (st : KState),
      count_kmers_from data st
        = some { kmer_dict := map_incr_all (all_kmers data) st.kmer_dict,
                 cerr := st.cerr ++ all_warnings data }
  | [], st => by simp [count_kmers_from, all_kmers, all_warnings, map_incr_all]
  | line :: rest, st => by
      simp only [count_kmers_from, count_kmers_line_eq, count_kmers_from_eq rest,
        all_kmers, all_warnings, map_incr_all, List.foldl_append, List.append_assoc]

theorem count_kmers_eq (data : List Str) :
    count_kmers data
      = some { kmer_dict := map_incr_all (all_kmers data) [],
               cerr := all_warnings data } := by
  simp [count_kmers, count_kmers_from_eq]

/-! ## Counting occurrences -/

theorem is_valid_dna_sequence_iff :
    ∀ (s : Str), is_valid_dna_sequence s = true ↔ ∀ c ∈ s, is_dna_char c
  | [] => by simp [is_valid_dna_sequence]
  | c :: cs => by
      have ih := is_valid_dna_sequence_iff cs
      simp only [is_valid_dna_sequence, List.mem_cons, forall_eq_or_imp, is_dna_char] at ih ⊢
      by_cases hA : c = 'A'
      · simp [hA, ih]
      · by_cases hT : c = 'T'
        · simp [hT, ih]
        · by_cases hC : c = 'C'
          · simp [hC, ih]
          · by_cases hG : c = 'G'
            · simp [hG, ih]
            · simp [hA, hT, hC, hG]

theorem is_skipped_eq_false_iff (line : Str) :
    is_skipped line = false ↔ line ≠ [] ∧ line.head? ≠ some '>' := by
  cases line with
  | nil => simp [is_skipped]
  | cons c cs => simp [is_skipped]

theorem map_incr_all_wf : ∀ (ks : List Str) (d : Dict), map_wf d → map_wf (map_incr_all ks d)
  | [], _, h => h
  | k :: ks, d, h => by
      simp only [map_incr_all, List.foldl_cons]
      exact map_incr_all_wf ks (map_incr k d) (map_incr_wf k d h)

theorem map_count_incr_all (k : Str) :
    ∀ (ks : List Str) (d : Dict), map_wf d →
      map_count (map_incr_all ks d) k = map_count d k + (ks.count k : Int)
  | [], d, _ => by simp [map_incr_all]
  | k' :: ks, d, h => by
      have ih := map_count_incr_all k ks (map_incr k' d) (map_incr_wf k' d h)
      simp only [map_incr_all, List.foldl_cons] at ih ⊢
      rw [ih, map_count_incr k' k d h, List.count_cons]
      by_cases hk : k' = k
      · simp [hk]; ring
      · simp [hk]

theorem map_wf_nil : map_wf [] := List.Pairwise.nil

theorem count_map_range (f : Nat → Str) (k : Str) :
    ∀ n : Nat, {j | j < n ∧ f j = k}.Finite ∧
      ((List.range n).map f).count k = {j | j < n ∧ f j = k}.ncard
  | 0 => by simp
  | n + 1 => by
      obtain ⟨hfin, ih⟩ := count_map_range f k n
      by_cases hk : f n = k
      · have hset : {j | j < n + 1 ∧ f j = k} = insert n {j | j < n ∧ f j = k} := by
          ext j
          simp only [Set.mem_setOf_eq, Set.mem_insert_iff]
          constructor
          · rintro ⟨h1, h2⟩
            by_cases hj : j = n
            · left; exact hj
            · right; exact ⟨by omega, h2⟩
          · rintro (h | ⟨h1, h2⟩)
            · subst h; exact ⟨by omega, hk⟩
            · exact ⟨by omega, h2⟩
        have hnot : n ∉ {j | j < n ∧ f j = k} := by simp
        rw [hset]
        refine ⟨hfin.insert n, ?_⟩
        rw [Set.ncard_insert_of_not_mem hnot hfin, List.range_succ, List.map_append,
          List.count_append, ih]
        simp [hk]
      · have hset : {j | j < n + 1 ∧ f j = k} = {j | j < n ∧ f j = k} := by
          ext j
          simp only [Set.mem_setOf_eq]
          constructor
          · rintro ⟨h1, h2⟩
            have : j ≠ n := by rintro rfl; exact hk h2
            exact ⟨by omega, h2⟩
          · rintro ⟨h1, h2⟩
            exact ⟨by omega, h2⟩
        rw [hset]
        refine ⟨hfin, ?_⟩
        rw [List.range_succ, List.map_append, List.count_append, ih]
        simp [List.count_cons, hk]


theorem line_kmers_count (line k : Str) :
    {j | is_line_occurrence line k j}.Finite ∧
      (line_kmers line).count k = {j | is_line_occurrence line k j}.ncard := by
  by_cases hs : is_skipped line = false
  · by_cases hv : is_valid_dna_sequence line = true
    · by_cases hl : line.length < 4
      · have hset : {j | is_line_occurrence line k j} = ∅ := by
          ext j
          simp only [Set.mem_setOf_eq, Set.mem_empty_iff_false, iff_false, is_line_occurrence]
          rintro ⟨_, h4, _⟩
          omega
        rw [hset]
        simp [line_kmers, hl]
      · have hset : {j | is_line_occurrence line k j}
            = {j | j < line.length - 3 ∧ window_at line j = k} := by
          ext j
          simp only [Set.mem_setOf_eq, is_line_occurrence, window_at]
          constructor
          · rintro ⟨_, h4, hj, hw⟩
            exact ⟨by omega, hw⟩
          · rintro ⟨hj, hw⟩
            exact ⟨⟨((is_skipped_eq_false_iff line).mp hs).1,
              ((is_skipped_eq_false_iff line).mp hs).2,
              (is_valid_dna_sequence_iff line).mp hv⟩, by omega, by omega, hw⟩
        rw [hset]
        have := count_map_range (window_at line) k (line.length - 3)
        simpa [line_kmers, hs, hv, hl] using this
    · have hset : {j | is_line_occurrence line k j} = ∅ := by
        ext j
        simp only [Set.mem_setOf_eq, Set.mem_empty_iff_false, iff_false, is_line_occurrence]
        rintro ⟨⟨_, _, h3⟩, _⟩
        exact hv ((is_valid_dna_sequence_iff line).mpr h3)
      rw [hset]
      simp [line_kmers, hv]
  · have hset : {j | is_line_occurrence line k j} = ∅ := by
      ext j
      simp only [Set.mem_setOf_eq, Set.mem_empty_iff_false, iff_false, is_line_occurrence]
      rintro ⟨⟨h1, h2, _⟩, _⟩
      exact hs ((is_skipped_eq_false_iff line).mpr ⟨h1, h2⟩)
    rw [hset]
    have hs' : is_skipped line = true := by simpa using hs
    simp [line_kmers, hs']

theorem is_occurrence_cons (line : Str) (rest : List Str) (k : Str) :
    {p | is_occurrence (line :: rest) k p}
      = (fun j => ((0 : Nat), j)) '' {j | is_line_occurrence line k j}
        ∪ (fun p : Nat × Nat => (p.1 + 1, p.2)) '' {p | is_occurrence rest k p} := by
  ext ⟨i, j⟩
  simp only [Set.mem_setOf_eq, Set.mem_union, Set.mem_image, is_occurrence, Prod.mk.injEq,
    Prod.exists]
  cases i with
  | zero =>
      constructor
      · rintro ⟨l, hl, ho⟩
        simp only [List.getElem?_cons_zero, Option.some.injEq] at hl
        subst hl
        left; exact ⟨j, ho, rfl, rfl⟩
      · rintro (⟨j', ho, _, rfl⟩ | ⟨a, b, _, h, _⟩)
        · exact ⟨line, by simp, ho⟩
        · omega
  | succ i =>
      constructor
      · rintro ⟨l, hl, ho⟩
        simp only [List.getElem?_cons_succ] at hl
        right; exact ⟨i, j, ⟨l, hl, ho⟩, rfl, rfl⟩
      · rintro (⟨j', _, h, _⟩ | ⟨a, b, ⟨l, hl, ho⟩, h1, h2⟩)
        · omega
        · have ha : a = i := by omega
          subst ha h2
          exact ⟨l, by simpa using hl, ho⟩

theorem all_kmers_count (k : Str) :
    ∀ (data : List Str), {p | is_occurrence data k p}.Finite ∧
      (all_kmers data).count k = {p | is_occurrence data k p}.ncard
  | [] => by
      have hset : {p | is_occurrence [] k p} = ∅ := by
        ext p
        simp [is_occurrence]
      rw [hset]
      simp [all_kmers]
  | line :: rest => by
      obtain ⟨hfin, ih⟩ := all_kmers_count k rest
      obtain ⟨hlfin, hl⟩ := line_kmers_count line k
      have hinj0 : Function.Injective (fun j : Nat => ((0 : Nat), j)) := by
        intro a b h
        simpa using h
      have hinj1 : Function.Injective (fun p : Nat × Nat => (p.1 + 1, p.2)) := by
        rintro ⟨a, b⟩ ⟨c, d⟩ h
        simpa using h
      have hdisj : Disjoint ((fun j => ((0 : Nat), j)) '' {j | is_line_occurrence line k j})
          ((fun p : Nat × Nat => (p.1 + 1, p.2)) '' {p | is_occurrence rest k p}) := by
        rw [Set.disjoint_left]
        rintro ⟨a, b⟩ ⟨j, _, hj⟩ ⟨q, _, hq⟩
        simp only [Prod.mk.injEq] at hj hq
        omega
      rw [is_occurrence_cons]
      refine ⟨(hlfin.image _).union (hfin.image _), ?_⟩
      rw [Set.ncard_union_eq hdisj (hlfin.image _) (hfin.image _),
        Set.ncard_image_of_injective _ hinj0, Set.ncard_image_of_injective _ hinj1,
        ← ih, ← hl]
      simp [all_kmers, List.count_append]

/-- C1: for every list of lines and every string `k`, `count_kmers` returns, and
the count it stores for `k` (0 when `k` is not a key) is the number of pairs
(line position, offset) at which a valid sequence line of length at least 4 has
the window `k`. -/
theorem count_kmers_counts_occurrences (data : List Str) (k : Str) :
    ∃ st, count_kmers data = some st ∧
      map_count st.kmer_dict k = (Set.ncard {p | is_occurrence data k p} : Nat) := by
  refine ⟨_, count_kmers_eq data, ?_⟩
  simp only
  rw [map_count_incr_all k _ [] map_wf_nil, (all_kmers_count k data).2]
  simp [map_count]

/-! ## The sum of the counts -/

theorem map_total_incr_all :
    ∀ (ks : List Str) (d : Dict), map_total (map_incr_all ks d) = map_total d + (ks.length : Int)
  | [], d => by simp [map_incr_all]
  | k :: ks, d => by
      have ih := map_total_incr_all ks (map_incr k d)
      simp only [map_incr_all, List.foldl_cons] at ih ⊢
      rw [ih, map_total_incr]
      simp only [List.length_cons]
      push_cast
      ring

theorem is_sequence_line_iff (line : Str) :
    is_sequence_line line ↔ is_skipped line = false ∧ is_valid_dna_sequence line = true := by
  rw [is_skipped_eq_false_iff, is_valid_dna_sequence_iff]
  simp only [is_sequence_line, and_assoc]

theorem line_kmers_length (line : Str) :
    ((line_kmers line).length : Int)
      = if is_sequence_line line then max 0 ((line.length : Int) - 3) else 0 := by
  by_cases hseq : is_sequence_line line
  · obtain ⟨hs, hv⟩ := (is_sequence_line_iff line).mp hseq
    by_cases hl : line.length < 4
    · simp only [line_kmers, hs, hv, hl, hseq, if_true]
      simp
      omega
    · simp only [line_kmers, hs, hv, hl, hseq, if_true]
      simp
      omega
  · have : is_skipped line = true ∨ is_valid_dna_sequence line = false := by
      by_contra hcon
      push_neg at hcon
      exact hseq ((is_sequence_line_iff line).mpr ⟨by simpa using hcon.1, by simpa using hcon.2⟩)
    rcases this with h | h <;> simp [line_kmers, h, hseq]

theorem all_kmers_length :
    ∀ (data : List Str), ((all_kmers data).length : Int)
      = ((data.filter (fun l => decide (is_sequence_line l))).map
          (fun l => max 0 ((l.length : Int) - 3))).sum
  | [] => by simp [all_kmers]
  | line :: rest => by
      have ih := all_kmers_length rest
      simp only [all_kmers, List.length_append, Nat.cast_add, ih, line_kmers_length,
        List.filter_cons]
      by_cases hseq : is_sequence_line line
      · simp [hseq]
      · simp [hseq]

/-- C2: for every list of lines, `count_kmers` returns, and the sum of all counts
of the returned mapping is the sum of `max(0, length - 3)` over the valid
sequence lines. -/
theorem count_kmers_total (data : List Str) :
    ∃ st, count_kmers data = some st ∧
      map_total st.kmer_dict
        = ((data.filter (fun l => decide (is_sequence_line l))).map
            (fun l => max 0 ((l.length : Int) - 3))).sum := by
  refine ⟨_, count_kmers_eq data, ?_⟩
  simp only
  rw [map_total_incr_all, all_kmers_length]
  simp [map_total]

/-! ## The keys of the mapping -/

theorem map_incr_all_keys :
    ∀ (ks : List Str) (d : Dict) (k : Str), k ∈ map_keys (map_incr_all ks d) →
      k ∈ ks ∨ k ∈ map_keys d
  | [], d, k, h => Or.inr h
  | k' :: ks, d, k, h => by
      simp only [map_incr_all, List.foldl_cons] at h
      rcases map_incr_all_keys ks (map_incr k' d) k h with h | h
      · left; exact List.mem_cons_of_mem _ h
      · obtain ⟨e, he, hek⟩ := List.mem_map.mp h
        rcases map_incr_mem k' d e he with h' | h'
        · left; rw [← hek, h']; exact List.mem_cons_self _ _
        · right; rw [← hek]; exact h'

theorem line_kmers_is_kmer (line k : Str) (h : k ∈ line_kmers line) : is_kmer k := by
  unfold line_kmers at h
  split_ifs at h with hc
  · simp at h
  · simp only [Bool.or_eq_true, Bool.not_eq_true', decide_eq_true_eq, not_or,
      Bool.not_eq_false, not_lt] at hc
    obtain ⟨⟨_, hv⟩, hl⟩ := hc
    obtain ⟨j, hj, rfl⟩ := List.mem_map.mp h
    have hj' : j < line.length - 3 := List.mem_range.mp hj
    refine ⟨?_, ?_⟩
    · simp only [window_at, List.length_take, List.length_drop]
      omega
    · intro c hcm
      exact (is_valid_dna_sequence_iff line).mp hv c
        (List.mem_of_mem_drop (List.mem_of_mem_take hcm))

theorem all_kmers_is_kmer : ∀ (data : List Str) (k : Str), k ∈ all_kmers data → is_kmer k
  | [], k, h => by simp [all_kmers] at h
  | line :: rest, k, h => by
      simp only [all_kmers, List.mem_append] at h
      rcases h with h | h
      · exact line_kmers_is_kmer line k h
      · exact all_kmers_is_kmer rest k h

theorem sort_insert_perm {α : Type} (comp : α → α → Bool) (x : α) :
    ∀ (l : List α), (sort_insert comp x l).Perm (x :: l)
  | [] => List.Perm.refl _
  | y :: ys => by
      simp only [sort_insert]
      split_ifs
      · exact List.Perm.refl _
      · exact ((sort_insert_perm comp x ys).cons y).trans (List.Perm.swap x y ys)

theorem std_sort_perm {α : Type} (comp : α → α → Bool) :
    ∀ (l : List α), (std_sort comp l).Perm l
  | [] => List.Perm.refl _
  | x :: xs => by
      simp only [std_sort]
      exact (sort_insert_perm comp x _).trans ((std_sort_perm comp xs).cons x)

/-- C3: for every list of lines, `count_kmers` returns, and every key of the
returned mapping, and so every key of `sort_kmers` of it, has exactly 4
characters, each one of `A`, `T`, `C`, `G`. -/
theorem count_kmers_keys_are_kmers (data : List Str) :
    ∃ st, count_kmers data = some st ∧
      (∀ k ∈ map_keys st.kmer_dict, k.length = 4 ∧ ∀ c ∈ k, is_dna_char c) ∧
      (∀ e ∈ sort_kmers st.kmer_dict, e.1.length = 4 ∧ ∀ c ∈ e.1, is_dna_char c) := by
  refine ⟨_, count_kmers_eq data, ?_⟩
  have hkeys : ∀ k ∈ map_keys (map_incr_all (all_kmers data) []), is_kmer k := by
    intro k hk
    rcases map_incr_all_keys _ _ k hk with h | h
    · exact all_kmers_is_kmer data k h
    · simp [map_keys] at h
  refine ⟨hkeys, ?_⟩
  intro e he
  have hmem : e ∈ map_incr_all (all_kmers data) [] :=
    (std_sort_perm compare_kmer_counts _).mem_iff.mp he
  exact hkeys e.1 (List.mem_map_of_mem Prod.fst hmem)

/-! ## The comparator -/

theorem compare_kmer_counts_iff (a b : Str × Int) :
    compare_kmer_counts a b = true ↔ b.2 < a.2 ∨ (a.2 = b.2 ∧ str_lt a.1 b.1 = true) := by
  simp [compare_kmer_counts]

theorem compare_irrefl (a : Str × Int) : compare_kmer_counts a a = false := by
  rw [← Bool.not_eq_true, compare_kmer_counts_iff]
  simp [str_lt_irrefl]

theorem compare_trans (a b c : Str × Int) (hab : compare_kmer_counts a b = true)
    (hbc : compare_kmer_counts b c = true) : compare_kmer_counts a c = true := by
  rw [compare_kmer_counts_iff] at hab hbc ⊢
  rcases hab with h1 | ⟨h1, h1'⟩ <;> rcases hbc with h2 | ⟨h2, h2'⟩
  · left; omega
  · left; omega
  · left; omega
  · right; exact ⟨by omega, str_lt_trans _ _ _ h1' h2'⟩

theorem compare_asymm (a b : Str × Int) (hab : compare_kmer_counts a b = true) :
    compare_kmer_counts b a = false := by
  rw [← Bool.not_eq_true]
  intro hba
  have := compare_trans a b a hab hba
  rw [compare_irrefl] at this
  exact Bool.false_ne_true this

theorem compare_total (a b : Str × Int) (hab : compare_kmer_counts a b = false)
    (hba : compare_kmer_counts b a = false) : a = b := by
  rw [← Bool.not_eq_true, compare_kmer_counts_iff] at hab hba
  push_neg at hab hba
  obtain ⟨h1, h1'⟩ := hab
  obtain ⟨h2, h2'⟩ := hba
  have hc : a.2 = b.2 := by omega
  have hk : a.1 = b.1 :=
    str_lt_total a.1 b.1 (by simpa using h1' hc) (by simpa using h2' hc.symm)
  exact Prod.ext hk hc

theorem compare_of_key_ne (a b : Str × Int) (h : a.1 ≠ b.1) :
    compare_kmer_counts a b = true ∨ compare_kmer_counts b a = true := by
  by_contra hcon
  push_neg at hcon
  have := compare_total a b (by simpa using hcon.1) (by simpa using hcon.2)
  exact h (by rw [this])

theorem compare_not_trans (a b c : Str × Int) (hab : compare_kmer_counts b a = false)
    (hbc : compare_kmer_counts c b = false) : compare_kmer_counts c a = false := by
  rw [← Bool.not_eq_true]
  intro hca
  by_cases h1 : compare_kmer_counts a b = true
  · have := compare_trans c a b hca h1
    rw [hbc] at this
    exact Bool.false_ne_true this
  · have hab' : a = b := compare_total a b (by simpa using h1) hab
    rw [hab', hbc] at hca
    exact Bool.false_ne_true hca

/-- C6: `compare_kmer_counts` is a strict total order on (key, count) pairs: it is
irreflexive, asymmetric, transitive, and total (two pairs neither of which
precedes the other have the same key and the same count); in particular two
entries with distinct keys are never tied. -/
theorem compare_kmer_counts_strict_total_order :
    (∀ a, compare_kmer_counts a a = false) ∧
    (∀ a b, ¬ (compare_kmer_counts a b = true ∧ compare_kmer_counts b a = true)) ∧
    (∀ a b c, compare_kmer_counts a b = true → compare_kmer_counts b c = true →
      compare_kmer_counts a c = true) ∧
    (∀ a b, compare_kmer_counts a b = false → compare_kmer_counts b a = false →
      a.1 = b.1 ∧ a.2 = b.2) ∧
    (∀ a b, a.1 ≠ b.1 → compare_kmer_counts a b = true ∨ compare_kmer_counts b a = true) := by
  refine ⟨compare_irrefl, ?_, compare_trans, ?_, compare_of_key_ne⟩
  · rintro a b ⟨hab, hba⟩
    rw [compare_asymm a b hab] at hba
    exact Bool.false_ne_true hba
  · intro a b hab hba
    rw [compare_total a b hab hba]
    exact ⟨rfl, rfl⟩

/-! ## Sorting -/

theorem sort_insert_sorted (x : Str × Int) :
    ∀ (l : List (Str × Int)), l.Pairwise (fun a b => compare_kmer_counts b a = false) →
      (sort_insert compare_kmer_counts x l).Pairwise
        (fun a b => compare_kmer_counts b a = false)
  | [], _ => by simp [sort_insert]
  | y :: ys, h => by
      have hhd := (List.pairwise_cons.mp h).1
      have htl := (List.pairwise_cons.mp h).2
      simp only [sort_insert]
      by_cases hc : compare_kmer_counts x y = true
      · simp only [hc, if_true]
        refine List.pairwise_cons.mpr ⟨?_, h⟩
        intro e he
        rcases List.mem_cons.mp he with he | he
        · rw [he]; exact compare_asymm x y hc
        · exact compare_not_trans x y e (compare_asymm x y hc) (hhd e he)
      · simp only [hc, if_false]
        refine List.pairwise_cons.mpr ⟨?_, sort_insert_sorted x ys htl⟩
        intro e he
        rcases List.mem_cons.mp ((sort_insert_perm compare_kmer_counts x ys).mem_iff.mp he)
          with he | he
        · rw [he]; simpa using hc
        · exact hhd e he

theorem std_sort_sorted :
    ∀ (l : List (Str × Int)),
      (std_sort compare_kmer_counts l).Pairwise (fun a b => compare_kmer_counts b a = false)
  | [] => List.Pairwise.nil
  | x :: xs => by
      simp only [std_sort]
      exact sort_insert_sorted x _ (std_sort_sorted xs)

theorem sort_kmers_nodup_keys (m : Dict) (h : (map_keys m).Nodup) :
    (map_keys (sort_kmers m)).Nodup :=
  (((std_sort_perm compare_kmer_counts m).map Prod.fst).nodup_iff).mpr h

theorem sort_kmers_pairwise (m : Dict) (h : (map_keys m).Nodup) :
    (sort_kmers m).Pairwise (fun a b => compare_kmer_counts a b = true) := by
  have h1 := std_sort_sorted m
  have h2 : (sort_kmers m).Pairwise (fun a b => a.1 ≠ b.1) :=
    List.pairwise_map.mp (sort_kmers_nodup_keys m h)
  refine (h1.and h2).imp ?_
  rintro a b ⟨hba, hne⟩
  rcases compare_of_key_ne a b hne with h | h
  · exact h
  · rw [hba] at h; exact absurd h Bool.false_ne_true

/-- C4: for every mapping with unique keys, the sequence returned by `sort_kmers`
is sorted: for every adjacent pair `(a, b)` the count of `a` is at least the
count of `b`, and when the counts are equal the key of `a` is strictly smaller
than the key of `b` in the string order. -/
theorem sort_kmers_sorted (m : Dict) (h : (map_keys m).Nodup) :
    (sort_kmers m).Chain'
      (fun a b => a.2 ≥ b.2 ∧ (a.2 = b.2 → str_lt a.1 b.1 = true)) := by
  refine ((sort_kmers_pairwise m h).imp ?_).chain'
  intro a b hab
  rcases (compare_kmer_counts_iff a b).mp hab with h1 | ⟨h1, h2⟩
  · exact ⟨by omega, fun he => by omega⟩
  · exact ⟨by omega, fun _ => h2⟩

theorem sort_kmers_sorted_witness :
    (map_keys [("AAAA".toList, 1), ("CCCC".toList, 2)]).Nodup ∧
    (sort_kmers [("AAAA".toList, 1), ("CCCC".toList, 2)]).Chain'
      (fun a b => a.2 ≥ b.2 ∧ (a.2 = b.2 → str_lt a.1 b.1 = true)) :=
  ⟨by decide, sort_kmers_sorted _ (by decide)⟩

theorem filter_key_eq : ∀ (m : Dict) (k : Str), (map_keys m).Nodup → k ∈ map_keys m →
    m.filter (fun e => decide (e.1 = k)) = [(k, map_count m k)]
  | [], k, _, h => by simp [map_keys] at h
  | (k', v) :: rest, k, hnd, h => by
      simp only [map_keys, List.map_cons, List.nodup_cons] at hnd
      by_cases hk : k' = k
      · subst hk
        have hnil : rest.filter (fun e => decide (e.1 = k')) = [] := by
          rw [List.filter_eq_nil_iff]
          intro e he hek
          exact hnd.1 (by rw [← of_decide_eq_true hek]; exact List.mem_map_of_mem Prod.fst he)
        simp [List.filter_cons, map_count, hnil]
      · simp only [map_keys, List.map_cons, List.mem_cons] at h
        rcases h with h | h
        · exact absurd h.symm hk
        · simp only [List.filter_cons, hk, decide_False, map_count, if_false,
            Bool.false_eq_true]
          exact filter_key_eq rest k hnd.2 h

/-- C5: for every mapping `m` with unique keys, `sort_kmers m` is a permutation of
the entries of `m`: its length is the size of `m`, every key of `m` occurs in
it exactly once, paired with the count `m` stores for it, and every pair in it
is an entry of `m`. -/
theorem sort_kmers_perm (m : Dict) (h : (map_keys m).Nodup) :
    (sort_kmers m).Perm m ∧
    (sort_kmers m).length = m.length ∧
    (∀ k ∈ map_keys m,
      (sort_kmers m).filter (fun e => decide (e.1 = k)) = [(k, map_count m k)]) ∧
    (∀ e ∈ sort_kmers m, e ∈ m) := by
  have hp : (sort_kmers m).Perm m := std_sort_perm compare_kmer_counts m
  refine ⟨hp, hp.length_eq, ?_, fun e he => hp.mem_iff.mp he⟩
  intro k hk
  have hf := hp.filter (fun e => decide (e.1 = k))
  rw [filter_key_eq m k h hk] at hf
  exact List.perm_singleton.mp hf

theorem sort_kmers_perm_witness :
    (map_keys [("AAAA".toList, 1), ("CCCC".toList, 2)]).Nodup ∧
    (sort_kmers [("AAAA".toList, 1), ("CCCC".toList, 2)]).Perm
      [("AAAA".toList, 1), ("CCCC".toList, 2)] :=
  ⟨by decide, (sort_kmers_perm _ (by decide)).1⟩

/-! ## Lines that add nothing to the mapping -/

theorem all_kmers_append : ∀ (xs ys : List Str), all_kmers (xs ++ ys) = all_kmers xs ++ all_kmers ys
  | [], ys => by simp [all_kmers]
  | x :: xs, ys => by simp [all_kmers, all_kmers_append xs ys]

theorem all_warnings_append :
    ∀ (xs ys : List Str), all_warnings (xs ++ ys) = all_warnings xs ++ all_warnings ys
  | [], ys => by simp [all_warnings]
  | x :: xs, ys => by simp [all_warnings, all_warnings_append xs ys]

theorem is_skipped_of_header (line : Str) (h : line = [] ∨ line.head? = some '>') :
    is_skipped line = true := by
  cases line with
  | nil => rfl
  | cons c cs =>
      rcases h with h | h
      · exact absurd h (List.cons_ne_nil c cs)
      · simpa [is_skipped] using h

theorem is_skipped_of_not_header (line : Str) (hne : line ≠ [])
    (hhd : line.head? ≠ some '>') : is_skipped line = false :=
  (is_skipped_eq_false_iff line).mpr ⟨hne, hhd⟩

theorem not_valid_of_invalid_char (line : Str) (h : ∃ c ∈ line, ¬ is_dna_char c) :
    is_valid_dna_sequence line = false := by
  rw [← Bool.not_eq_true, is_valid_dna_sequence_iff]
  obtain ⟨c, hc, hn⟩ := h
  exact fun hall => hn (hall c hc)

theorem all_kmers_filter_headers :
    ∀ (data : List Str),
      all_kmers (data.filter (fun l => !(decide (l = []) || decide (l.head? = some '>'))))
        = all_kmers data
  | [] => rfl
  | line :: rest => by
      have ih := all_kmers_filter_headers rest
      by_cases h : line = [] ∨ line.head? = some '>'
      · have hs := is_skipped_of_header line h
        have hf : (!(decide (line = []) || decide (line.head? = some '>'))) = false := by
          simp only [Bool.not_eq_false', Bool.or_eq_true, decide_eq_true_eq]
          exact h
        simp only [List.filter_cons, hf, all_kmers, ih, line_kmers, hs, Bool.true_or,
          if_true, List.nil_append, Bool.false_eq_true, if_false]
      · have hf : (!(decide (line = []) || decide (line.head? = some '>'))) = true := by
          simpa using h
        simp only [List.filter_cons, hf, all_kmers, ih, if_true]

theorem all_warnings_filter_headers :
    ∀ (data : List Str),
      all_warnings (data.filter (fun l => !(decide (l = []) || decide (l.head? = some '>'))))
        = all_warnings data
  | [] => rfl
  | line :: rest => by
      have ih := all_warnings_filter_headers rest
      by_cases h : line = [] ∨ line.head? = some '>'
      · have hs := is_skipped_of_header line h
        have hf : (!(decide (line = []) || decide (line.head? = some '>'))) = false := by
          simp only [Bool.not_eq_false', Bool.or_eq_true, decide_eq_true_eq]
          exact h
        simp only [List.filter_cons, hf, all_warnings, ih, line_warnings, hs,
          if_true, List.nil_append, Bool.false_eq_true, if_false]
      · have hf : (!(decide (line = []) || decide (line.head? = some '>'))) = true := by
          simpa using h
        simp only [List.filter_cons, hf, all_warnings, ih, if_true]

/-- C7: removing all empty lines and all lines whose first character is `>` from
the input changes neither the mapping returned by `count_kmers` nor the
warnings it emits. -/
theorem count_kmers_ignores_headers (data : List Str) :
    ∃ st, count_kmers data = some st ∧
      count_kmers (data.filter (fun l => !(decide (l = []) || decide (l.head? = some '>'))))
        = some st := by
  refine ⟨_, count_kmers_eq data, ?_⟩
  rw [count_kmers_eq, all_kmers_filter_headers, all_warnings_filter_headers]

theorem count_kmers_without_line (xs ys : List Str) (line : Str)
    (hk : line_kmers line = []) :
    count_kmers (xs ++ line :: ys)
      = some { kmer_dict := map_incr_all (all_kmers (xs ++ ys)) [],
               cerr := all_warnings xs ++ line_warnings line ++ all_warnings ys } := by
  rw [count_kmers_eq, all_kmers_append, all_warnings_append, all_kmers_append]
  simp [all_kmers, all_warnings, hk]

theorem line_kmers_invalid (line : Str) (h : ∃ c ∈ line, ¬ is_dna_char c) :
    line_kmers line = [] := by
  simp [line_kmers, not_valid_of_invalid_char line h]

theorem line_warnings_invalid (line : Str) (hhd : line.head? ≠ some '>')
    (h : ∃ c ∈ line, ¬ is_dna_char c) : line_warnings line = [warn_invalid line] := by
  have hne : line ≠ [] := by
    rintro rfl
    obtain ⟨c, hc, _⟩ := h
    simp at hc
  simp [line_warnings, is_skipped_of_not_header line hne hhd,
    not_valid_of_invalid_char line h]

theorem line_kmers_short (line : Str) (h : line.length < 4) : line_kmers line = [] := by
  simp [line_kmers, h]

theorem line_warnings_short (line : Str) (hne : line ≠ []) (hhd : line.head? ≠ some '>')
    (hdna : ∀ c ∈ line, is_dna_char c) (h : line.length < 4) :
    line_warnings line = [warn_short line] := by
  simp [line_warnings, is_skipped_of_not_header line hne hhd,
    (is_valid_dna_sequence_iff line).mpr hdna, h]

/-- C8: for every line of the input that is non-empty, does not start with `>` and
contains a character outside `A`, `T`, `C`, `G`, `count_kmers` returns the same
mapping as for the input without that line, and its warnings are those of the
lines before, then exactly one invalid-sequence warning holding the full text
of the line, then those of the lines after.  On `["ATCN"]`, and on the
lowercase line `["atcg"]`, it returns the empty mapping and one warning. -/
theorem count_kmers_invalid_line (xs ys : List Str) (line : Str) (_hne : line ≠ [])
    (hhd : line.head? ≠ some '>') (hinv : ∃ c ∈ line, ¬ is_dna_char c) :
    (∃ st st' sx sy, count_kmers (xs ++ line :: ys) = some st ∧
      count_kmers (xs ++ ys) = some st' ∧
      count_kmers xs = some sx ∧ count_kmers ys = some sy ∧
      st.kmer_dict = st'.kmer_dict ∧
      st'.cerr = sx.cerr ++ sy.cerr ∧
      st.cerr = sx.cerr
        ++ ["Warning: Invalid DNA sequence found: ".toList ++ line ++ ['\n']]
        ++ sy.cerr) ∧
    count_kmers ["ATCN".toList]
      = some { kmer_dict := [],
               cerr := ["Warning: Invalid DNA sequence found: ATCN".toList ++ ['\n']] } ∧
    count_kmers ["atcg".toList]
      = some { kmer_dict := [],
               cerr := ["Warning: Invalid DNA sequence found: atcg".toList ++ ['\n']] } := by
  refine ⟨⟨_, _, _, _, count_kmers_without_line xs ys line (line_kmers_invalid line hinv),
    count_kmers_eq _, count_kmers_eq xs, count_kmers_eq ys, rfl, ?_, ?_⟩, by decide, by decide⟩
  · exact all_warnings_append xs ys
  · simp only [line_warnings_invalid line hhd hinv]
    rfl

theorem count_kmers_invalid_line_witness :
    ("ATxG".toList ≠ [] ∧ "ATxG".toList.head? ≠ some '>' ∧
      ∃ c ∈ "ATxG".toList, ¬ is_dna_char c) ∧
    ∃ st st' sx sy, count_kmers (["ATCGA".toList] ++ "ATxG".toList :: ["GGGGG".toList]) = some st ∧
      count_kmers (["ATCGA".toList] ++ ["GGGGG".toList]) = some st' ∧
      count_kmers ["ATCGA".toList] = some sx ∧ count_kmers ["GGGGG".toList] = some sy ∧
      st.kmer_dict = st'.kmer_dict ∧
      st'.cerr = sx.cerr ++ sy.cerr ∧
      st.cerr = sx.cerr
        ++ ["Warning: Invalid DNA sequence found: ".toList ++ "ATxG".toList ++ ['\n']]
        ++ sy.cerr :=
  ⟨⟨by decide, by decide, 'x', by decide, by decide⟩,
    (count_kmers_invalid_line ["ATCGA".toList] ["GGGGG".toList] "ATxG".toList
      (by decide) (by decide) ⟨'x', by decide, by decide⟩).1⟩

/-! ## Lines with an invalid character, and short lines -/

theorem split_at_index (data : List Str) (i : Nat) (line : Str) (hi : data[i]? = some line) :
    data = data.take i ++ line :: data.drop (i + 1) := by
  obtain ⟨hlt, hget⟩ := List.getElem?_eq_some.mp hi
  rw [← hget, ← List.drop_eq_getElem_cons hlt, List.take_append_drop]

/-- C9 (counterexample): the header line `>N` contains characters outside
`A`, `T`, `C`, `G`, and `count_kmers` emits no warning for it. -/
theorem count_kmers_header_line_no_warning :
    (∃ c ∈ ">N".toList, ¬ is_dna_char c) ∧
    count_kmers [">N".toList] = some { kmer_dict := [], cerr := [] } :=
  ⟨⟨'N', by decide, by decide⟩, by decide⟩

/-- C9 (amended): for every line of the input that does not start with `>` and
contains a character outside `A`, `T`, `C`, `G`, the mapping returned by
`count_kmers` is the one returned for the input with that line erased, and the
warnings are those of the lines before it, then exactly one warning whose text
contains the line, then those of the lines after it. -/
theorem count_kmers_invalid_char_line (data : List Str) (i : Nat) (line : Str)
    (hi : data[i]? = some line) (hhd : line.head? ≠ some '>')
    (hinv : ∃ c ∈ line, ¬ is_dna_char c) :
    ∃ st st' sb sa w, count_kmers data = some st ∧
      count_kmers (data.eraseIdx i) = some st' ∧
      count_kmers (data.take i) = some sb ∧ count_kmers (data.drop (i + 1)) = some sa ∧
      st.kmer_dict = st'.kmer_dict ∧
      List.IsInfix line w ∧
      st'.cerr = sb.cerr ++ sa.cerr ∧
      st.cerr = sb.cerr ++ [w] ++ sa.cerr := by
  have hsplit := split_at_index data i line hi
  have h1 := count_kmers_without_line (data.take i) (data.drop (i + 1)) line
    (line_kmers_invalid line hinv)
  rw [← hsplit] at h1
  refine ⟨_, _, _, _, warn_invalid line, h1, count_kmers_eq _, count_kmers_eq _,
    count_kmers_eq _, ?_, ?_, ?_, ?_⟩
  · simp only [List.eraseIdx_eq_take_drop_succ]
  · exact ⟨"Warning: Invalid DNA sequence found: ".toList, ['\n'], rfl⟩
  · simp only [List.eraseIdx_eq_take_drop_succ]
    exact all_warnings_append _ _
  · simp only [line_warnings_invalid line hhd hinv]

theorem count_kmers_invalid_char_line_witness :
    (["ATCGA".toList, "ATNG".toList][1]? = some "ATNG".toList ∧
      "ATNG".toList.head? ≠ some '>' ∧ ∃ c ∈ "ATNG".toList, ¬ is_dna_char c) ∧
    ∃ st st' sb sa w, count_kmers ["ATCGA".toList, "ATNG".toList] = some st ∧
      count_kmers (["ATCGA".toList, "ATNG".toList].eraseIdx 1) = some st' ∧
      count_kmers (["ATCGA".toList, "ATNG".toList].take 1) = some sb ∧
      count_kmers (["ATCGA".toList, "ATNG".toList].drop (1 + 1)) = some sa ∧
      st.kmer_dict = st'.kmer_dict ∧
      List.IsInfix "ATNG".toList w ∧
      st'.cerr = sb.cerr ++ sa.cerr ∧
      st.cerr = sb.cerr ++ [w] ++ sa.cerr :=
  ⟨⟨by decide, by decide, 'N', by decide, by decide⟩,
    count_kmers_invalid_char_line ["ATCGA".toList, "ATNG".toList] 1 "ATNG".toList
      (by decide) (by decide) ⟨'N', by decide, by decide⟩⟩

/-- C10: for every line of the input that is non-empty, does not start with `>`,
consists only of `A`, `T`, `C`, `G` and has length 1, 2 or 3, `count_kmers`
returns the same mapping as for the input without that line, and its warnings
are those of the lines before, then exactly one too-short warning holding the
text of the line, then those of the lines after.  On `[">header1", "ATC"]` it
returns the empty mapping and one warning, and the ranked output is empty. -/
theorem count_kmers_short_line (xs ys : List Str) (line : Str) (hne : line ≠ [])
    (hhd : line.head? ≠ some '>') (hdna : ∀ c ∈ line, is_dna_char c)
    (hlen : line.length = 1 ∨ line.length = 2 ∨ line.length = 3) :
    (∃ st st' sx sy, count_kmers (xs ++ line :: ys) = some st ∧
      count_kmers (xs ++ ys) = some st' ∧
      count_kmers xs = some sx ∧ count_kmers ys = some sy ∧
      st.kmer_dict = st'.kmer_dict ∧
      st'.cerr = sx.cerr ++ sy.cerr ∧
      st.cerr = sx.cerr
        ++ ["Warning: Line too short to contain any k-mers: ".toList ++ line ++ ['\n']]
        ++ sy.cerr) ∧
    count_kmers [">header1".toList, "ATC".toList]
      = some { kmer_dict := [],
               cerr := ["Warning: Line too short to contain any k-mers: ATC".toList ++ ['\n']] } ∧
    (count_kmers [">header1".toList, "ATC".toList]).map (fun st => sort_kmers st.kmer_dict)
      = some [] := by
  have hlt : line.length < 4 := by omega
  refine ⟨⟨_, _, _, _, count_kmers_without_line xs ys line (line_kmers_short line hlt),
    count_kmers_eq _, count_kmers_eq xs, count_kmers_eq ys, rfl, ?_, ?_⟩, by decide, by decide⟩
  · exact all_warnings_append xs ys
  · simp only [line_warnings_short line hne hhd hdna hlt]
    rfl

theorem count_kmers_short_line_witness :
    ("AT".toList ≠ [] ∧ "AT".toList.head? ≠ some '>' ∧ (∀ c ∈ "AT".toList, is_dna_char c) ∧
      ("AT".toList.length = 1 ∨ "AT".toList.length = 2 ∨ "AT".toList.length = 3)) ∧
    ∃ st st' sx sy, count_kmers (["ATCGA".toList] ++ "AT".toList :: ["GGGGG".toList]) = some st ∧
      count_kmers (["ATCGA".toList] ++ ["GGGGG".toList]) = some st' ∧
      count_kmers ["ATCGA".toList] = some sx ∧ count_kmers ["GGGGG".toList] = some sy ∧
      st.kmer_dict = st'.kmer_dict ∧
      st'.cerr = sx.cerr ++ sy.cerr ∧
      st.cerr = sx.cerr
        ++ ["Warning: Line too short to contain any k-mers: ".toList ++ "AT".toList ++ ['\n']]
        ++ sy.cerr :=
  ⟨⟨by decide, by decide, by decide, by decide⟩,
    (count_kmers_short_line ["ATCGA".toList] ["GGGGG".toList] "AT".toList
      (by decide) (by decide) (by decide) (by decide)).1⟩

/-! ## Independence of the line order -/

theorem str_lt_cases (a b : Str) :
    (str_lt a b = true ∧ str_lt b a = false) ∨ (a = b) ∨
      (str_lt a b = false ∧ str_lt b a = true) := by
  by_cases h1 : str_lt a b = true
  · exact Or.inl ⟨h1, str_lt_asymm a b h1⟩
  · by_cases h2 : str_lt b a = true
    · exact Or.inr (Or.inr ⟨by simpa using h1, h2⟩)
    · exact Or.inr (Or.inl (str_lt_total a b (by simpa using h1) (by simpa using h2)))

theorem map_incr_comm (a b : Str) :
    ∀ (d : Dict), map_incr a (map_incr b d) = map_incr b (map_incr a d)
  | [] => by
      rcases str_lt_cases a b with ⟨h1, h2⟩ | h | ⟨h1, h2⟩
      · simp [map_incr, h1, h2]
      · subst h; rfl
      · simp [map_incr, h1, h2]
  | (k, v) :: rest => by
      have ih := map_incr_comm a b rest
      rcases str_lt_cases a b with ⟨hab, hba⟩ | h | ⟨hab, hba⟩
      · rcases str_lt_cases b k with ⟨hbk, hkb⟩ | h | ⟨hbk, hkb⟩
        · have hak := str_lt_trans a b k hab hbk
          simp [map_incr, hab, hba, hbk, hkb, hak]
        · subst h
          simp [map_incr, hab, hba, str_lt_irrefl]
        · rcases str_lt_cases a k with ⟨hak, hka⟩ | h | ⟨hak, hka⟩
          · simp [map_incr, hab, hba, hbk, hkb, hak, hka]
          · subst h
            simp [map_incr, hab, hba, str_lt_irrefl]
          · simp [map_incr, hab, hba, hbk, hkb, hak, hka, ih]
      · subst h; rfl
      · rcases str_lt_cases a k with ⟨hak, hka⟩ | h | ⟨hak, hka⟩
        · have hbk := str_lt_trans b a k hba hak
          simp [map_incr, hab, hba, hbk, hak]
        · subst h
          simp [map_incr, hab, hba, str_lt_irrefl]
        · rcases str_lt_cases b k with ⟨hbk, hkb⟩ | h | ⟨hbk, hkb⟩
          · simp [map_incr, hab, hba, hbk, hkb, hak, hka]
          · subst h
            simp [map_incr, hab, hba, str_lt_irrefl]
          · simp [map_incr, hab, hba, hbk, hkb, hak, hka, ih]

theorem map_incr_all_perm (ks ks' : List Str) (h : ks.Perm ks') (d : Dict) :
    map_incr_all ks d = map_incr_all ks' d :=
  List.Perm.foldl_eq' h (fun x _ y _ z => map_incr_comm y x z) d

theorem all_kmers_perm {xs ys : List Str} (h : xs.Perm ys) :
    (all_kmers xs).Perm (all_kmers ys) := by
  induction h with
  | nil => exact List.Perm.refl _
  | cons x _ ih => exact List.Perm.append_left _ ih
  | swap x y l =>
      simp only [all_kmers, ← List.append_assoc]
      exact List.Perm.append_right _ List.perm_append_comm
  | trans _ _ ih1 ih2 => exact ih1.trans ih2

/-- C11: for every list of lines and every permutation of it, `count_kmers`
returns the same mapping for both, and so `sort_kmers` and the text
`write_output` writes are the same for both. -/
theorem count_kmers_perm (xs ys : List Str) (h : xs.Perm ys) :
    ∃ sx sy, count_kmers xs = some sx ∧ count_kmers ys = some sy ∧
      sx.kmer_dict = sy.kmer_dict ∧
      sort_kmers sx.kmer_dict = sort_kmers sy.kmer_dict ∧
      ∀ opens bad, write_output (sort_kmers sx.kmer_dict) opens bad
        = write_output (sort_kmers sy.kmer_dict) opens bad := by
  have hd : map_incr_all (all_kmers xs) [] = map_incr_all (all_kmers ys) [] :=
    map_incr_all_perm _ _ (all_kmers_perm h) []
  refine ⟨_, _, count_kmers_eq xs, count_kmers_eq ys, hd, ?_, ?_⟩
  · simp only [hd]
  · intro opens bad
    simp only [hd]

theorem count_kmers_perm_witness :
    ["ATCGA".toList, "GGGGG".toList].Perm ["GGGGG".toList, "ATCGA".toList] ∧
    ∃ sx sy, count_kmers ["ATCGA".toList, "GGGGG".toList] = some sx ∧
      count_kmers ["GGGGG".toList, "ATCGA".toList] = some sy ∧
      sx.kmer_dict = sy.kmer_dict ∧
      sort_kmers sx.kmer_dict = sort_kmers sy.kmer_dict ∧
      ∀ opens bad, write_output (sort_kmers sx.kmer_dict) opens bad
        = write_output (sort_kmers sy.kmer_dict) opens bad :=
  ⟨List.Perm.swap _ _ _,
    count_kmers_perm ["ATCGA".toList, "GGGGG".toList] ["GGGGG".toList, "ATCGA".toList]
      (List.Perm.swap _ _ _)⟩

/-! ## The order of the warnings -/

theorem line_warnings_eq (line : Str) :
    line_warnings line = if is_warned line then [warning_of line] else [] := by
  by_cases hs : is_skipped line = true
  · have hnw : ¬ is_warned line := by
      rintro ⟨h1, h2, _⟩
      rw [(is_skipped_eq_false_iff line).mpr ⟨h1, h2⟩] at hs
      exact Bool.false_ne_true hs
    simp [line_warnings, hs, hnw]
  · have hs' : is_skipped line = false := by simpa using hs
    obtain ⟨h1, h2⟩ := (is_skipped_eq_false_iff line).mp hs'
    by_cases hv : ∀ c ∈ line, is_dna_char c
    · have hv' := (is_valid_dna_sequence_iff line).mpr hv
      by_cases hl : line.length < 4
      · have hw : is_warned line := ⟨h1, h2, Or.inr hl⟩
        rw [line_warnings_short line h1 h2 hv hl, if_pos hw, warning_of, if_pos hv]
      · have hnw : ¬ is_warned line := by
          rintro ⟨_, _, ⟨c, hc, hn⟩ | h⟩
          · exact hn (hv c hc)
          · exact hl h
        simp [line_warnings, hs', hv', hl, hnw]
    · have hinv : ∃ c ∈ line, ¬ is_dna_char c := by
        push_neg at hv
        exact hv
      have hw : is_warned line := ⟨h1, h2, Or.inl hinv⟩
      simp only [line_warnings_invalid line h2 hinv, hw, if_true, warning_of, hv, if_false]

theorem all_warnings_eq :
    ∀ (data : List Str),
      all_warnings data = (data.filter (fun l => decide (is_warned l))).map warning_of
  | [] => rfl
  | line :: rest => by
      rw [all_warnings, all_warnings_eq rest, line_warnings_eq, List.filter_cons]
      by_cases hw : is_warned line
      · simp [hw]
      · simp [hw]

/-- C12: the warnings of `count_kmers` follow the line order: the warnings for
`xs ++ ys` are those for `xs` followed by those for `ys`; and the warnings for
a list are, in the original order, one warning for each of its lines that is
non-empty, does not start with `>` and is invalid or shorter than 4. -/
theorem count_kmers_warnings_in_order (xs ys : List Str) :
    ∃ sx sy s, count_kmers xs = some sx ∧ count_kmers ys = some sy ∧
      count_kmers (xs ++ ys) = some s ∧
      s.cerr = sx.cerr ++ sy.cerr ∧
      sx.cerr = (xs.filter (fun l => decide (is_warned l))).map warning_of := by
  refine ⟨_, _, _, count_kmers_eq xs, count_kmers_eq ys, count_kmers_eq _, ?_, ?_⟩
  · exact all_warnings_append xs ys
  · exact all_warnings_eq xs

/-! ## The text written by `write_output` -/

theorem write_entries_eq :
    ∀ (entries : List (Str × Int)) (f : Str),
      write_entries entries f = f ++ entries.flatMap entry_line
  | [], f => by simp [write_entries]
  | e :: rest, f => by
      rw [write_entries, write_entries_eq rest, List.flatMap_cons, entry_line]
      simp only [List.append_assoc]

theorem write_output_eq (ranked : List (Str × Int)) :
    write_output ranked true false = Except.ok (ranked.flatMap entry_line) := by
  simp [write_output, write_entries_eq]

theorem digitChar_ne_line_feed (d : Nat) (h : d < 10) : Nat.digitChar d ≠ '\n' := by
  interval_cases d <;> decide

theorem toDigitsCore_no_line_feed :
    ∀ (fuel n : Nat) (ds : List Char), '\n' ∉ ds → '\n' ∉ Nat.toDigitsCore 10 fuel n ds
  | 0, _, ds, h => by simpa [Nat.toDigitsCore] using h
  | fuel + 1, n, ds, h => by
      have hd : '\n' ∉ Nat.digitChar (n % 10) :: ds := by
        intro hmem
        rcases List.mem_cons.mp hmem with h' | h'
        · exact digitChar_ne_line_feed _ (Nat.mod_lt n (by decide)) h'.symm
        · exact h h'
      simp only [Nat.toDigitsCore]
      split
      · exact hd
      · exact toDigitsCore_no_line_feed fuel _ _ hd

theorem int_text_no_line_feed (n : Int) : '\n' ∉ int_text n := by
  cases n with
  | ofNat m =>
      exact toDigitsCore_no_line_feed _ _ [] (List.not_mem_nil _)
  | negSucc m =>
      intro hmem
      rcases List.mem_cons.mp hmem with h' | h'
      · exact absurd h' (by decide)
      · exact toDigitsCore_no_line_feed _ _ [] (List.not_mem_nil _) h'

theorem entry_line_count (e : Str × Int) (h : '\n' ∉ e.1) :
    (entry_line e).count '\n' = 1 := by
  simp only [entry_line, List.count_append, List.count_eq_zero_of_not_mem h,
    List.count_eq_zero_of_not_mem (int_text_no_line_feed e.2)]
  decide

theorem flatMap_entry_line_count :
    ∀ (ranked : List (Str × Int)), (∀ e ∈ ranked, '\n' ∉ e.1) →
      (ranked.flatMap entry_line).count '\n' = ranked.length
  | [], _ => rfl
  | e :: rest, h => by
      rw [List.flatMap_cons, List.count_append, entry_line_count e (h e (List.mem_cons_self _ _)),
        flatMap_entry_line_count rest (fun e' he' => h e' (List.mem_cons_of_mem _ he'))]
      simp [Nat.add_comm]

theorem kmer_no_line_feed (k : Str) (h : is_kmer k) : '\n' ∉ k := by
  intro hmem
  rcases h.2 _ hmem with h | h | h | h <;> exact absurd h (by decide)

/-- C14: for the input lines `["ATCGATCG"]`, `count_kmers` returns exactly the
mapping ATCG: 2, CGAT: 1, GATC: 1, TCGA: 1 and emits no warning, `sort_kmers`
of it is `[(ATCG,2), (CGAT,1), (GATC,1), (TCGA,1)]`, and the text written is
`ATCG<TAB>2<LF>CGAT<TAB>1<LF>GATC<TAB>1<LF>TCGA<TAB>1<LF>`. -/
theorem count_kmers_example_ATCGATCG :
    count_kmers ["ATCGATCG".toList]
      = some { kmer_dict := [("ATCG".toList, 2), ("CGAT".toList, 1), ("GATC".toList, 1),
                             ("TCGA".toList, 1)],
               cerr := [] } ∧
    sort_kmers [("ATCG".toList, 2), ("CGAT".toList, 1), ("GATC".toList, 1), ("TCGA".toList, 1)]
      = [("ATCG".toList, 2), ("CGAT".toList, 1), ("GATC".toList, 1), ("TCGA".toList, 1)] ∧
    write_output [("ATCG".toList, 2), ("CGAT".toList, 1), ("GATC".toList, 1),
        ("TCGA".toList, 1)] true false
      = Except.ok "ATCG\t2\nCGAT\t1\nGATC\t1\nTCGA\t1\n".toList :=
  ⟨by decide, by decide, rfl⟩

/-- C15: `is_valid_dna_sequence s` is true exactly when every character of `s`
is one of the uppercase `A`, `T`, `C`, `G`; it is true for the empty string and
false for any string holding a lowercase `a`, `t`, `c` or `g`. -/
theorem is_valid_dna_sequence_spec (s : Str) :
    (is_valid_dna_sequence s = true ↔ ∀ c ∈ s, c = 'A' ∨ c = 'T' ∨ c = 'C' ∨ c = 'G') ∧
    is_valid_dna_sequence [] = true ∧
    ((∃ c ∈ s, c = 'a' ∨ c = 't' ∨ c = 'c' ∨ c = 'g') → is_valid_dna_sequence s = false) := by
  refine ⟨is_valid_dna_sequence_iff s, rfl, ?_⟩
  rintro ⟨c, hc, hlow⟩
  apply not_valid_of_invalid_char
  refine ⟨c, hc, ?_⟩
  rcases hlow with h | h | h | h <;> subst h <;> decide

theorem is_valid_dna_sequence_spec_witness :
    (∃ c ∈ "ATcG".toList, c = 'a' ∨ c = 't' ∨ c = 'c' ∨ c = 'g') ∧
    is_valid_dna_sequence "ATcG".toList = false :=
  ⟨⟨'c', by decide, by decide⟩,
    (is_valid_dna_sequence_spec "ATcG".toList).2.2 ⟨'c', by decide, by decide⟩⟩

/-! ## Uniqueness of the ranked sequence -/

theorem sort_result_unique (m l : List (Str × Int))
    (h : is_sort_result compare_kmer_counts m l) : l = sort_kmers m := by
  haveI : IsAntisymm (Str × Int) (fun a b => compare_kmer_counts b a = false) :=
    ⟨fun a b hab hba => compare_total a b hba hab⟩
  exact List.eq_of_perm_of_sorted
    (h.1.trans (std_sort_perm compare_kmer_counts m).symm) h.2 (std_sort_sorted m)

theorem sort_kmers_is_sort_result (m : Dict) :
    is_sort_result compare_kmer_counts m (sort_kmers m) :=
  ⟨std_sort_perm compare_kmer_counts m, std_sort_sorted m⟩

/-- C18: for every mapping `m` with unique keys, any list that is a permutation
of the entries of `m` in which no later element compares before an earlier one
equals `sort_kmers m`; `sort_kmers m` is itself such a list; and sorting the
entries taken in any other order gives the same sequence.  So the ranked
sequence depends neither on the sort algorithm nor on the iteration order. -/
theorem sort_kmers_unique (m : Dict) (l : List (Str × Int)) (_hk : (map_keys m).Nodup)
    (hp : l.Perm m) (hs : l.Pairwise (fun a b => compare_kmer_counts b a = false)) :
    l = sort_kmers m ∧
    (sort_kmers m).Perm m ∧
    (sort_kmers m).Pairwise (fun a b => compare_kmer_counts b a = false) ∧
    ∀ m' : List (Str × Int), m'.Perm m → sort_kmers m' = sort_kmers m := by
  refine ⟨sort_result_unique m l ⟨hp, hs⟩, std_sort_perm _ m, std_sort_sorted m, ?_⟩
  intro m' hm'
  exact sort_result_unique m (sort_kmers m')
    ⟨(std_sort_perm compare_kmer_counts m').trans hm', std_sort_sorted m'⟩

theorem sort_kmers_unique_witness :
    ((map_keys [("AAAA".toList, 1), ("CCCC".toList, 2)]).Nodup ∧
      [("CCCC".toList, (2 : Int)), ("AAAA".toList, 1)].Perm
        [("AAAA".toList, 1), ("CCCC".toList, 2)] ∧
      [("CCCC".toList, (2 : Int)), ("AAAA".toList, 1)].Pairwise
        (fun a b => compare_kmer_counts b a = false)) ∧
    [("CCCC".toList, (2 : Int)), ("AAAA".toList, 1)]
      = sort_kmers [("AAAA".toList, 1), ("CCCC".toList, 2)] :=
  ⟨⟨by decide, List.Perm.swap _ _ _, by decide⟩,
    (sort_kmers_unique [("AAAA".toList, 1), ("CCCC".toList, 2)]
      [("CCCC".toList, 2), ("AAAA".toList, 1)] (by decide) (List.Perm.swap _ _ _)
      (by decide)).1⟩

/-! ## Determinism -/

/-- C17: the transform is deterministic: for every list of lines the pipeline
`write_output(sort_kmers(count_kmers(lines)))` yields a text and a warning
sequence, and every run on the same lines, whatever arrangement its sort
chooses within the contract of `std::sort`, yields that same text and those
same warnings. -/
theorem pipeline_deterministic (lines : List Str) :
    ∃ warnings text,
      (∃ st, count_kmers lines = some st ∧ warnings = st.cerr ∧
        write_output (sort_kmers st.kmer_dict) true false = Except.ok text) ∧
      is_run lines warnings text ∧
      ∀ warnings' text', is_run lines warnings' text' →
        text' = text ∧ warnings' = warnings := by
  refine ⟨all_warnings lines,
    (sort_kmers (map_incr_all (all_kmers lines) [])).flatMap entry_line,
    ⟨_, count_kmers_eq lines, rfl, write_output_eq _⟩,
    ⟨_, _, count_kmers_eq lines, sort_kmers_is_sort_result _, write_output_eq _, rfl⟩, ?_⟩
  rintro warnings' text' ⟨st, ranked, hst, hsort, hw, hwarn⟩
  rw [count_kmers_eq] at hst
  cases hst
  rw [sort_result_unique _ ranked hsort, write_output_eq] at hw
  cases hw
  exact ⟨rfl, hwarn⟩

theorem pipeline_deterministic_witness :
    ∃ warnings text, is_run ["ATCGA".toList, "AT".toList] warnings text ∧
      ∀ warnings' text', is_run ["ATCGA".toList, "AT".toList] warnings' text' →
        text' = text ∧ warnings' = warnings := by
  obtain ⟨w, t, _, h2, h3⟩ := pipeline_deterministic ["ATCGA".toList, "AT".toList]
  exact ⟨w, t, h2, h3⟩

/-! ## Bounds of the accesses of `count_kmers` -/

theorem kmer_loop_traced_eq (line : Str) (h4 : 4 ≤ line.length) :
    ∀ (n fuel j : Nat) (d : Dict) (log : List (Nat × Str)),
      j + n = line.length - 3 → n < fuel →
      kmer_loop_traced line fuel j d log
        = some (map_incr_all ((List.range' j n).map (window_at line)) d,
                log ++ (List.range' j n).map (fun i => (i, window_at line i)))
  | 0, fuel, j, d, log, hj, hf => by
      obtain ⟨f, rfl⟩ : ∃ f, fuel = f + 1 := ⟨fuel - 1, by omega⟩
      have hgt : ¬ j ≤ size_sub line.length 4 := by
        rw [size_sub_of_le _ _ h4]; omega
      simp [kmer_loop_traced, hgt, map_incr_all]
  | n + 1, fuel, j, d, log, hj, hf => by
      obtain ⟨f, rfl⟩ : ∃ f, fuel = f + 1 := ⟨fuel - 1, by omega⟩
      have hle : j ≤ size_sub line.length 4 := by
        rw [size_sub_of_le _ _ h4]; omega
      have hsub : substr line j 4 = some (window_at line j) := by
        have : ¬ j > line.length := by omega
        simp [substr, this, window_at]
      have ih := kmer_loop_traced_eq line h4 n f (j + 1) (map_incr (window_at line j) d)
        (log ++ [(j, window_at line j)]) (by omega) (by omega)
      simp only [kmer_loop_traced, hle, if_true, hsub, ih]
      simp [List.range'_succ, map_incr_all]

theorem count_kmers_line_traced_eq (line : Str) (st : KState) :
    count_kmers_line_traced line st
      = some ({ kmer_dict := map_incr_all (line_kmers line) st.kmer_dict,
                cerr := st.cerr ++ line_warnings line },
              if is_skipped line || !is_valid_dna_sequence line || decide (line.length < 4)
              then []
              else (List.range (line.length - 3)).map (fun i => (i, window_at line i))) := by
  cases line with
  | nil =>
      simp [count_kmers_line_traced, line_kmers, line_warnings, is_skipped, map_incr_all]
  | cons c cs =>
      by_cases hc : c = '>'
      · simp [count_kmers_line_traced, line_kmers, line_warnings, is_skipped, map_incr_all, hc]
      · by_cases hv : is_valid_dna_sequence (c :: cs) = true
        · by_cases hl : (c :: cs).length < 4
          · have hl' : cs.length + 1 < 4 := by simpa using hl
            simp [count_kmers_line_traced, line_kmers, line_warnings, is_skipped, map_incr_all,
              hc, hv, hl']
          · have h4 : 4 ≤ (c :: cs).length := by omega
            have hloop := kmer_loop_traced_eq (c :: cs) h4 ((c :: cs).length - 3)
              ((c :: cs).length + 1) 0 st.kmer_dict [] (by omega) (by omega)
            simp only [count_kmers_line_traced, List.isEmpty_cons, Bool.false_eq_true, if_false,
              List.getElem?_cons_zero, hc, hv, Bool.not_true, hl, hloop,
              line_kmers, line_warnings, is_skipped, decide_False, Bool.false_or,
              Bool.or_false, List.append_nil, List.range_eq_range', List.nil_append]
        · have hv' : is_valid_dna_sequence (c :: cs) = false := by simpa using hv
          simp [count_kmers_line_traced, line_kmers, line_warnings, is_skipped, map_incr_all,
            hc, hv']

/-- C19: all indexing in the body of the line loop of `count_kmers` is in bounds.
The body with checked accesses returns, with the same state as the body of
`count_kmers`, so `line[0]` is read only inside the line and `substr` never
throws; every recorded iteration has `j + 4 ≤ size` and a `substr` result of
exactly 4 characters; and for a line that reaches the window loop the
subtraction `line.size() - 4` does not wrap and the loop runs the indices
`0 .. size - 4`, that is `size - 3` iterations, and ends. -/
theorem count_kmers_accesses_in_bounds (line : Str) (st : KState) :
    ∃ st' log, count_kmers_line_traced line st = some (st', log) ∧
      count_kmers_line line st = some st' ∧
      (line.isEmpty = false → ∃ c, (line)[0]? = some c) ∧
      (∀ p ∈ log, p.1 + 4 ≤ line.length ∧ p.2.length = 4) ∧
      (is_skipped line = false → is_valid_dna_sequence line = true → ¬ line.length < 4 →
        (size_sub line.length 4 : Int) = (line.length : Int) - 4 ∧
        log.map Prod.fst = List.range (line.length - 3) ∧
        log.length = line.length - 3) := by
  refine ⟨_, _, count_kmers_line_traced_eq line st, count_kmers_line_eq line st, ?_, ?_, ?_⟩
  · intro hne
    cases line with
    | nil => simp at hne
    | cons c cs => exact ⟨c, by simp⟩
  · intro p hp
    split_ifs at hp with hcond
    · simp at hp
    · simp only [Bool.or_eq_true, Bool.not_eq_true', decide_eq_true_eq, not_or,
        Bool.not_eq_false, not_lt] at hcond
      obtain ⟨i, hi, rfl⟩ := List.mem_map.mp hp
      have hi' : i < line.length - 3 := List.mem_range.mp hi
      refine ⟨by omega, ?_⟩
      simp only [window_at, List.length_take, List.length_drop]
      omega
  · intro hs hv hl
    have h4 : 4 ≤ line.length := by omega
    refine ⟨?_, ?_, ?_⟩
    · rw [size_sub_of_le _ _ h4]
      omega
    · simp [hs, hv, hl, Function.comp_def]
    · simp [hs, hv, hl]

theorem count_kmers_accesses_in_bounds_witness :
    (is_skipped "ATCGA".toList = false ∧ is_valid_dna_sequence "ATCGA".toList = true ∧
      ¬ "ATCGA".toList.length < 4) ∧
    ∃ st' log, count_kmers_line_traced "ATCGA".toList { kmer_dict := [], cerr := [] }
        = some (st', log) ∧
      log.length = "ATCGA".toList.length - 3 := by
  obtain ⟨st', log, h1, _, _, _, h5⟩ :=
    count_kmers_accesses_in_bounds "ATCGA".toList { kmer_dict := [], cerr := [] }
  exact ⟨⟨by decide, by decide, by decide⟩, st', log, h1,
    (h5 (by decide) (by decide) (by decide)).2.2⟩

/-! ## Size of the mapping -/

theorem length_flatMap_const {α β : Type} (l : List α) (f : α → List β) (n : Nat)
    (h : ∀ x, (f x).length = n) : (l.flatMap f).length = l.length * n := by
  induction l with
  | nil => simp
  | cons x xs ih => simp [List.flatMap_cons, ih, h, Nat.succ_mul, Nat.add_comm]

theorem all_4mers_length : all_4mers.length = 256 := by
  unfold all_4mers
  rw [length_flatMap_const _ _ 64]
  · rfl
  · intro a
    rw [length_flatMap_const _ _ 16]
    · rfl
    · intro b
      rw [length_flatMap_const _ _ 4]
      · rfl
      · intro c
        rfl

theorem mem_dna_alphabet (c : Char) (h : is_dna_char c) : c ∈ dna_alphabet := by
  rcases h with h | h | h | h <;> subst h <;> decide

theorem is_kmer_mem_all_4mers (k : Str) (h : is_kmer k) : k ∈ all_4mers := by
  obtain ⟨hlen, hall⟩ := h
  match k, hlen, hall with
  | [a, b, c, d], _, hall =>
      simp only [all_4mers, List.mem_flatMap, List.mem_map]
      exact ⟨a, mem_dna_alphabet a (hall a (by simp)), b, mem_dna_alphabet b (hall b (by simp)),
        c, mem_dna_alphabet c (hall c (by simp)), d, mem_dna_alphabet d (hall d (by simp)), rfl⟩

theorem map_wf_nodup_keys (d : Dict) (h : map_wf d) : (map_keys d).Nodup := by
  unfold map_keys List.Nodup
  rw [List.pairwise_map]
  refine h.imp ?_
  intro a b hab heq
  rw [heq, str_lt_irrefl] at hab
  exact Bool.false_ne_true hab

theorem map_incr_pos (k : Str) :
    ∀ (d : Dict), (∀ e ∈ d, 1 ≤ e.2) → ∀ e ∈ map_incr k d, 1 ≤ e.2
  | [], _, e, he => by
      simp only [map_incr, List.mem_singleton] at he
      rw [he]; show (1 : Int) ≤ 0 + 1; omega
  | (k', v) :: rest, h, e, he => by
      have hv : 1 ≤ v := h (k', v) (List.mem_cons_self _ _)
      have hrest : ∀ e ∈ rest, 1 ≤ e.2 := fun e he => h e (List.mem_cons_of_mem _ he)
      simp only [map_incr] at he
      split_ifs at he
      · rcases List.mem_cons.mp he with he | he
        · rw [he]; show (1 : Int) ≤ 0 + 1; omega
        · exact h e he
      · rcases List.mem_cons.mp he with he | he
        · rw [he]; exact hv
        · exact map_incr_pos k rest hrest e he
      · rcases List.mem_cons.mp he with he | he
        · rw [he]; show (1 : Int) ≤ v + 1; omega
        · exact hrest e he

theorem map_incr_all_pos :
    ∀ (ks : List Str) (d : Dict), (∀ e ∈ d, 1 ≤ e.2) → ∀ e ∈ map_incr_all ks d, 1 ≤ e.2
  | [], _, h => h
  | k :: ks, d, h => by
      simp only [map_incr_all, List.foldl_cons]
      exact map_incr_all_pos ks (map_incr k d) (map_incr_pos k d h)

/-! ## The mapping with 32-bit counts -/

theorem int32_wrap_succ (v : Int) : int32_wrap (int32_wrap v + 1) = int32_wrap (v + 1) := by
  unfold int32_wrap
  omega

theorem int32_wrap_of_range (v : Int) (h1 : -2147483648 ≤ v) (h2 : v ≤ 2147483647) :
    int32_wrap v = v := by
  unfold int32_wrap
  omega

theorem map_incr32_wrap_dict (k : Str) :
    ∀ (d : Dict), map_incr32 k (wrap_dict d) = wrap_dict (map_incr k d)
  | [] => by simp [map_incr32, map_incr, wrap_dict]
  | (k', v) :: rest => by
      have ih := map_incr32_wrap_dict k rest
      simp only [wrap_dict, List.map_cons] at ih ⊢
      simp only [map_incr32, map_incr]
      by_cases h1 : str_lt k k' = true
      · simp [h1]
      · by_cases h2 : str_lt k' k = true
        · simp [h1, h2, ih]
        · simp [h1, h2, int32_wrap_succ]

theorem kmer_loop32_wrap_dict (line : Str) :
    ∀ (fuel j : Nat) (d : Dict),
      kmer_loop32 line fuel j (wrap_dict d) = (kmer_loop line fuel j d).map wrap_dict
  | 0, _, _ => rfl
  | fuel + 1, j, d => by
      simp only [kmer_loop32, kmer_loop]
      split_ifs
      · cases hs : substr line j 4 with
        | none => rfl
        | some kmer =>
            simp only [map_incr32_wrap_dict]
            exact kmer_loop32_wrap_dict line fuel (j + 1) (map_incr kmer d)
      · rfl

theorem count_kmers_line32_wrap (line : Str) (st : KState) :
    count_kmers_line32 line (wrap_state st) = (count_kmers_line line st).map wrap_state := by
  cases line with
  | nil => rfl
  | cons c cs =>
      simp only [count_kmers_line32, count_kmers_line]
      split_ifs
      · rfl
      · rfl
      · rfl
      · simp only [wrap_state, kmer_loop32_wrap_dict]
        cases kmer_loop (c :: cs) ((c :: cs).length + 1) 0 st.kmer_dict <;> rfl

theorem count_kmers_from32_wrap :
    ∀ (data : List Str) (st : KState),
      count_kmers_from32 data (wrap_state st) = (count_kmers_from data st).map wrap_state
  | [], _ => rfl
  | line :: rest, st => by
      simp only [count_kmers_from32, count_kmers_from, count_kmers_line32_wrap]
      cases count_kmers_line line st with
      | none => rfl
      | some st' => exact count_kmers_from32_wrap rest st'

theorem count_kmers32_eq (data : List Str) :
    count_kmers32 data
      = some { kmer_dict := wrap_dict (map_incr_all (all_kmers data) []),
               cerr := all_warnings data } := by
  have h := count_kmers_from32_wrap data { kmer_dict := [], cerr := [] }
  rw [count_kmers_from_eq] at h
  simpa [count_kmers32, wrap_state, wrap_dict] using h

theorem map_count_of_mem :
    ∀ (d : Dict), map_wf d → ∀ (k : Str) (v : Int), (k, v) ∈ d → map_count d k = v
  | [], _, _, _, h => by simp at h
  | (k', v') :: rest, hwf, k, v, h => by
      have hhd := (List.pairwise_cons.mp hwf).1
      have htl : map_wf rest := (List.pairwise_cons.mp hwf).2
      rcases List.mem_cons.mp h with h | h
      · cases h
        simp [map_count]
      · have hne : k' ≠ k := by
          intro he
          have hlt := hhd (k, v) h
          simp only [he] at hlt
          rw [str_lt_irrefl] at hlt
          exact Bool.false_ne_true hlt
        simp only [map_count, hne, if_false]
        exact map_count_of_mem rest htl k v h

theorem counted_keys_are_kmers (data : List Str) :
    ∀ k ∈ map_keys (map_incr_all (all_kmers data) []), is_kmer k := by
  intro k hk
  rcases map_incr_all_keys _ _ k hk with h | h
  · exact all_kmers_is_kmer data k h
  · simp [map_keys] at h

theorem counted_keys_length_le (data : List Str) :
    (map_incr_all (all_kmers data) []).length ≤ 256 := by
  have hnd := map_wf_nodup_keys _ (map_incr_all_wf (all_kmers data) [] map_wf_nil)
  have hsub := (hnd.subperm
    (fun k hk => is_kmer_mem_all_4mers k (counted_keys_are_kmers data k hk))).length_le
  rw [all_4mers_length] at hsub
  simpa [map_keys] using hsub

theorem wrap_dict_length (d : Dict) : (wrap_dict d).length = d.length := by
  simp [wrap_dict]

theorem wrap_dict_keys (d : Dict) : map_keys (wrap_dict d) = map_keys d := by
  simp [wrap_dict, map_keys, Function.comp_def]

theorem wrap_dict_pos (data : List Str)
    (h : ∀ k, Set.ncard {p | is_occurrence data k p} ≤ 2147483647) :
    ∀ e ∈ wrap_dict (map_incr_all (all_kmers data) []), 1 ≤ e.2 := by
  intro e he
  obtain ⟨e0, he0, rfl⟩ := List.mem_map.mp he
  have hwf := map_incr_all_wf (all_kmers data) [] map_wf_nil
  have hpos : 1 ≤ e0.2 :=
    map_incr_all_pos _ [] (fun e he => absurd he (List.not_mem_nil e)) e0 he0
  have hcount : map_count (map_incr_all (all_kmers data) []) e0.1 = e0.2 :=
    map_count_of_mem _ hwf e0.1 e0.2 he0
  rw [map_count_incr_all e0.1 _ [] map_wf_nil, (all_kmers_count e0.1 data).2] at hcount
  have hle : e0.2 ≤ 2147483647 := by
    have := h e0.1
    simp only [map_count] at hcount
    omega
  show 1 ≤ int32_wrap e0.2
  rw [int32_wrap_of_range e0.2 (by omega) hle]
  exact hpos

/-! ## A count past `INT_MAX` -/

theorem map_incr_all_replicate (k : Str) :
    ∀ (n : Nat) (v : Int),
      map_incr_all (List.replicate n k) [(k, v)] = [(k, v + n)]
  | 0, v => by simp [map_incr_all]
  | n + 1, v => by
      have ih := map_incr_all_replicate k n (v + 1)
      simp only [map_incr_all, List.replicate_succ, List.foldl_cons] at ih ⊢
      simp only [map_incr, str_lt_irrefl, Bool.false_eq_true, if_false, ih]
      have hsum : v + 1 + (n : Int) = v + ((n + 1 : Nat) : Int) := by
        push_cast; ring
      rw [hsum]

theorem map_incr_all_replicate_nil (k : Str) (n : Nat) :
    map_incr_all (List.replicate (n + 1) k) [] = [(k, (n : Int) + 1)] := by
  have h := map_incr_all_replicate k n (0 + 1)
  simp only [map_incr_all, List.replicate_succ, List.foldl_cons, map_incr] at h ⊢
  rw [h]
  simp [add_comm]

theorem line_kmers_replicate (m : Nat) :
    line_kmers (List.replicate (m + 4) 'A')
      = List.replicate (m + 1) (List.replicate 4 'A') := by
  have hs : is_skipped (List.replicate (m + 4) 'A') = false := by
    rw [List.replicate_succ]
    simp [is_skipped]
  have hv : is_valid_dna_sequence (List.replicate (m + 4) 'A') = true := by
    rw [is_valid_dna_sequence_iff]
    intro c hc
    exact Or.inl (List.eq_of_mem_replicate hc)
  have hl : ¬ (m + 4 < 4) := by omega
  have hsub : m + 4 - 3 = m + 1 := by omega
  have hk : line_kmers (List.replicate (m + 4) 'A')
      = (List.range (m + 1)).map (window_at (List.replicate (m + 4) 'A')) := by
    simp [line_kmers, hs, hv, hl, hsub]
  rw [hk]
  apply List.ext_getElem
  · simp
  · intro i h1 h2
    simp only [List.length_map, List.length_range] at h1
    simp only [List.getElem_map, List.getElem_range, List.getElem_replicate, window_at,
      List.drop_replicate, List.take_replicate]
    congr 1
    omega

theorem count_kmers32_replicate (m : Nat) :
    count_kmers32 [List.replicate (m + 4) 'A']
      = some { kmer_dict := [(List.replicate 4 'A', int32_wrap ((m : Int) + 1))],
               cerr := [] } := by
  have hs : is_skipped (List.replicate (m + 4) 'A') = false := by
    rw [List.replicate_succ]
    simp [is_skipped]
  have hv : is_valid_dna_sequence (List.replicate (m + 4) 'A') = true := by
    rw [is_valid_dna_sequence_iff]
    intro c hc
    exact Or.inl (List.eq_of_mem_replicate hc)
  have hl : ¬ (List.replicate (m + 4) 'A').length < 4 := by
    rw [List.length_replicate]; omega
  have hw : all_warnings [List.replicate (m + 4) 'A'] = [] := by
    simp only [all_warnings, line_warnings, hs, hv, hl, Bool.not_true, Bool.false_eq_true,
      if_false, List.append_nil]
  rw [count_kmers32_eq, hw]
  simp only [all_kmers, List.append_nil, line_kmers_replicate, map_incr_all_replicate_nil,
    wrap_dict, List.map_cons, List.map_nil]

/-- C20 (counterexample): on a single line of `2^31 + 3` letters `A`, which has
`2^31` windows `AAAA`, the count stored for `AAAA` is `-2147483648`, which is
not at least 1. -/
theorem count_kmers32_overflow :
    count_kmers32 [List.replicate 2147483651 'A']
      = some { kmer_dict := [("AAAA".toList, -2147483648)], cerr := [] } ∧
    ¬ (1 : Int) ≤ -2147483648 := by
  refine ⟨?_, by decide⟩
  have h := count_kmers32_replicate 2147483647
  have hw : int32_wrap (((2147483647 : Nat) : Int) + 1) = -2147483648 := by
    unfold int32_wrap
    omega
  rw [hw] at h
  exact h

/-- C20 (amended): for every list of lines, the mapping `count_kmers` returns,
with its counts in 32-bit `int`s, has at most 256 (= 4^4) keys, all distinct,
so the ranked sequence has at most 256 entries and the text written at most 256
lines, one per entry; and when no k-mer occurs more than 2147483647 times (no
count passes the range of `int`), every stored count is at least 1 and no
ranked entry has count 0. -/
theorem count_kmers32_size (data : List Str) :
    ∃ st, count_kmers32 data = some st ∧
      st.kmer_dict.length ≤ 256 ∧ (map_keys st.kmer_dict).Nodup ∧
      (sort_kmers st.kmer_dict).length ≤ 256 ∧
      (∃ text, write_output (sort_kmers st.kmer_dict) true false = Except.ok text ∧
        text.count '\n' = (sort_kmers st.kmer_dict).length ∧ text.count '\n' ≤ 256) ∧
      ((∀ k, Set.ncard {p | is_occurrence data k p} ≤ 2147483647) →
        (∀ e ∈ st.kmer_dict, 1 ≤ e.2) ∧ ∀ e ∈ sort_kmers st.kmer_dict, e.2 ≠ 0) := by
  refine ⟨_, count_kmers32_eq data, ?_⟩
  simp only
  have hlen : (wrap_dict (map_incr_all (all_kmers data) [])).length ≤ 256 := by
    rw [wrap_dict_length]; exact counted_keys_length_le data
  have hnd : (map_keys (wrap_dict (map_incr_all (all_kmers data) []))).Nodup := by
    rw [wrap_dict_keys]
    exact map_wf_nodup_keys _ (map_incr_all_wf (all_kmers data) [] map_wf_nil)
  have hperm := std_sort_perm compare_kmer_counts (wrap_dict (map_incr_all (all_kmers data) []))
  have hslen : (sort_kmers (wrap_dict (map_incr_all (all_kmers data) []))).length ≤ 256 := by
    rw [sort_kmers, hperm.length_eq]; exact hlen
  have hkeys : ∀ e ∈ sort_kmers (wrap_dict (map_incr_all (all_kmers data) [])),
      '\n' ∉ e.1 := by
    intro e he
    apply kmer_no_line_feed
    apply counted_keys_are_kmers data
    rw [← wrap_dict_keys]
    exact List.mem_map_of_mem Prod.fst (hperm.mem_iff.mp he)
  refine ⟨hlen, hnd, hslen, ⟨_, write_output_eq _, ?_, ?_⟩, ?_⟩
  · exact flatMap_entry_line_count _ hkeys
  · rw [flatMap_entry_line_count _ hkeys]; exact hslen
  · intro hrange
    have hpos := wrap_dict_pos data hrange
    refine ⟨hpos, ?_⟩
    intro e he
    have := hpos e (hperm.mem_iff.mp he)
    omega

theorem count_kmers32_size_witness :
    (∀ k, Set.ncard {p | is_occurrence ["ATCGA".toList] k p} ≤ 2147483647) ∧
    ∃ st, count_kmers32 ["ATCGA".toList] = some st ∧
      (∀ e ∈ st.kmer_dict, 1 ≤ e.2) ∧ ∀ e ∈ sort_kmers st.kmer_dict, e.2 ≠ 0 := by
  have hrange : ∀ k, Set.ncard {p | is_occurrence ["ATCGA".toList] k p} ≤ 2147483647 := by
    intro k
    rw [← (all_kmers_count k ["ATCGA".toList]).2]
    have h1 := List.count_le_length k (all_kmers ["ATCGA".toList])
    have h2 : (all_kmers ["ATCGA".toList]).length = 2 := by decide
    omega
  obtain ⟨st, h1, _, _, _, _, h6⟩ := count_kmers32_size ["ATCGA".toList]
  exact ⟨hrange, st, h1, h6 hrange⟩

/-! ## The exit code of `main` -/

theorem main_exit_code_of_outcomes (env : Env) (hargv : env.argv ≠ []) :
    ∃ r, main env = some r ∧
      (r.exit_code = 1 ↔
        (env.argc ≠ 3 ∨ env.infile_opens = false ∨ env.infile_tellg = 0 ∨
          env.read_opens = false ∨ env.read_bad = true ∨
          env.outfile_opens = false ∨ env.write_bad = true)) ∧
      (r.exit_code ≠ 1 → r.exit_code = 0) := by
  obtain ⟨argv, io, tg, ro, rl, rb, oo, wb, ff⟩ := env
  cases argv with
  | nil => exact absurd rfl hargv
  | cons a0 as =>
      by_cases h1 : as.length = 2 <;> by_cases h2 : tg = 0 <;>
        cases io <;> cases ro <;> cases rb <;> cases oo <;> cases wb <;>
        simp [main, check_args, read_file, write_output, count_kmers32_eq, Env.argc, h1, h2]

theorem main_without_arguments (env : Env) (hargv : env.argv = []) : main env = none := by
  obtain ⟨argv, io, tg, ro, rl, rb, oo, wb, ff⟩ := env
  simp only at hargv
  subst hargv
  simp [main, check_args, Env.argc]

/-- C16 (failing input): run as `countKmers in.txt /dev/full` on an input file
holding the line `ATCG`: both files open, the input is read, no write has
failed when `f.bad()` is tested, and the write of the buffered text fails when
the output stream is closed.  Writing the output fails, yet `main` returns 0
and reports nothing. -/
theorem main_flush_failure_exit_code :
    writing_fails { argv := ["countKmers".toList, "in.txt".toList, "/dev/full".toList],
                    infile_opens := true, infile_tellg := 5, read_opens := true,
                    read_lines := ["ATCG".toList], read_bad := false,
                    outfile_opens := true, write_bad := false, flush_fails := true } ∧
    main { argv := ["countKmers".toList, "in.txt".toList, "/dev/full".toList],
           infile_opens := true, infile_tellg := 5, read_opens := true,
           read_lines := ["ATCG".toList], read_bad := false,
           outfile_opens := true, write_bad := false, flush_fails := true }
      = some { exit_code := 0, cerr := [], outfile := none } :=
  ⟨Or.inr rfl, by decide⟩

end CountKmers
